import Mathlib

/-!
Verification of the `signals` software-defined-radio library.

Each section embeds one part of the TypeScript source as Lean definitions
(arrays become lists or index functions, loops become recursions, JavaScript
numbers become real numbers with Lean's total division), and the theorems at
the end of the file settle the specification claims against those definitions.
-/

namespace Signals

/-!
## Ring buffer (src/dsp/filters.ts, `RingBuffer` / `Float32RingBuffer`)

Arrays are lists; `doCopy` copies `count` elements one by one with
wrap-around on both source and destination offsets (the original copies in
chunks via `subarray`/`set`, with the same element-level effect), returning
the updated destination together with the final source and destination
offsets, exactly as the class returns `{ srcOffset, dstOffset }`.
-/

/-- `doCopy(count, src, srcOffset, dst, dstOffset)` from the `RingBuffer`
class: copies `count` values with wrap-around, returning the new destination
and the final `srcOffset` and `dstOffset`. -/
def doCopy {α : Type} [Inhabited α] :
    ℕ → List α → ℕ → List α → ℕ → List α × ℕ × ℕ
  | 0, _, srcOff, dst, dstOff => (dst, srcOff, dstOff)
  | n + 1, src, srcOff, dst, dstOff =>
      doCopy n src ((srcOff + 1) % src.length)
        (dst.set dstOff (src.getD srcOff default)) ((dstOff + 1) % dst.length)

/-- State of `RingBuffer<T>`: backing buffer, read position, write position,
and the `filled` count (`available`). -/
structure RingBuffer (α : Type) where
  buffer : List α
  readPos : ℕ
  writePos : ℕ
  filled : ℕ
deriving Repr, DecidableEq

/-- A freshly constructed `Float32RingBuffer(size)`: a zeroed buffer with all
cursors at 0. -/
def RingBuffer.new (α : Type) [Inhabited α] (size : ℕ) : RingBuffer α :=
  ⟨List.replicate size default, 0, 0, 0⟩

/-- `RingBuffer.store(data)`: copies `min(|data|, capacity)` values from the
start of `data` at the write position, advances the write position, saturates
`filled` at the capacity, and resets the read position to the write position
when the ring fills completely. -/
def RingBuffer.store {α : Type} [Inhabited α] (rb : RingBuffer α)
    (data : List α) : RingBuffer α :=
  let count := min data.length rb.buffer.length
  let r := doCopy count data 0 rb.buffer rb.writePos
  let filled := min rb.buffer.length (rb.filled + count)
  { buffer := r.1
    writePos := r.2.2
    filled := filled
    readPos := if filled = rb.buffer.length then r.2.2 else rb.readPos }

/-- `RingBuffer.moveTo(data)`: consumes the oldest unconsumed values into
`data`, returning the filled destination, the count copied, and the updated
ring. -/
def RingBuffer.moveTo {α : Type} [Inhabited α] (rb : RingBuffer α)
    (data : List α) : List α × ℕ × RingBuffer α :=
  let count := min data.length (min rb.buffer.length rb.filled)
  if count = 0 then (data, 0, rb)
  else
    let r := doCopy count rb.buffer rb.readPos data 0
    (r.1, count, { rb with readPos := r.2.1, filled := rb.filled - count })

/-- `RingBuffer.copyTo(data)`: copies the latest values into `data` without
consuming them; the ring state is untouched. -/
def RingBuffer.copyTo {α : Type} [Inhabited α] (rb : RingBuffer α)
    (data : List α) : List α :=
  let count := min data.length (min rb.buffer.length rb.filled)
  let srcOff := (rb.writePos + rb.buffer.length - count) % rb.buffer.length
  (doCopy count rb.buffer srcOff data 0).1

/-!
## Pending-read ring (src/sources/read_ring.ts, `PendingReadRing`)

The promise handles `{length, resolve, reject}` are modelled by giving each
successfully created promise a numeric identifier; settling a promise is
recorded as an outcome event (`resolved`/`rejected`), and the synchronous
`RadioError` thrown by a full `add` is the `tooManyReads` outcome.
-/

/-- One slot of the pending array: the requested `length` and the identifier
of the promise created by `add`. -/
structure PendingRead where
  length : ℕ
  id : ℕ
deriving Repr, DecidableEq, Inhabited

/-- State of `PendingReadRing`: fixed-size slot array plus the write pointer,
read pointer and element count. -/
structure PendingReadRing where
  pending : List PendingRead
  writePtr : ℕ
  readPtr : ℕ
  size : ℕ
deriving Repr, DecidableEq

/-- `new PendingReadRing(length)`. -/
def PendingReadRing.new (length : ℕ) : PendingReadRing :=
  ⟨List.replicate length default, 0, 0, 0⟩

/-- Capacity the sources use: `new PendingReadRing(8)` in
src/sources/realtime.ts. -/
def defaultPendingReadCapacity : ℕ := 8

/-- Observable outcome of a `PendingReadRing` operation. -/
inductive ReadOutcome
  | added (id : ℕ)
  | tooManyReads
  | resolved (id : ℕ) (block : ℕ)
  | rejected (id : ℕ)
deriving Repr, DecidableEq

/-- `PendingReadRing.add(length)`: `none` when the ring is full (the method
throws the *too-many-reads* `RadioError` before touching any state),
otherwise the updated ring holding the new entry at the write pointer. -/
def PendingReadRing.add (st : PendingReadRing) (len id : ℕ) :
    Option PendingReadRing :=
  if st.size = st.pending.length then none
  else
    some
      { pending := st.pending.set st.writePtr ⟨len, id⟩
        writePtr := (st.writePtr + 1) % st.pending.length
        readPtr := st.readPtr
        size := st.size + 1 }

/-- `PendingReadRing.resolve(block)`: resolves the promise at the read
pointer (no effect on an empty ring). -/
def PendingReadRing.resolve (st : PendingReadRing) (block : ℕ) :
    PendingReadRing × List ReadOutcome :=
  if st.size = 0 then (st, [])
  else
    ({ st with readPtr := (st.readPtr + 1) % st.pending.length
               size := st.size - 1 },
      [.resolved (st.pending.getD st.readPtr default).id block])

/-- The `while (this.size > 0)` loop of `cancel`, with the size as fuel
(each iteration decrements `size` by one). -/
def cancelGo : ℕ → PendingReadRing → PendingReadRing × List ReadOutcome
  | 0, st => (st, [])
  | n + 1, st =>
      let e := ReadOutcome.rejected (st.pending.getD st.readPtr default).id
      let r := cancelGo n
        { st with readPtr := (st.readPtr + 1) % st.pending.length
                  size := st.size - 1 }
      (r.1, e :: r.2)

/-- `PendingReadRing.cancel()`: rejects every pending promise with the
*transfer-canceled* `RadioError`, oldest first. -/
def PendingReadRing.cancel (st : PendingReadRing) :
    PendingReadRing × List ReadOutcome :=
  cancelGo st.size st

/-- `PendingReadRing.hasPendingRead()`. -/
def PendingReadRing.hasPendingRead (st : PendingReadRing) : Bool :=
  decide (0 < st.size)

/-- `PendingReadRing.nextReadSize()`. -/
def PendingReadRing.nextReadSize (st : PendingReadRing) : ℕ :=
  if st.size = 0 then 0 else (st.pending.getD st.readPtr default).length

/-- A client-visible operation on the pending-read ring. -/
inductive ReadOp
  | add (len : ℕ)
  | resolve (block : ℕ)
  | cancel
deriving Repr, DecidableEq

/-- Runs a sequence of operations against the concrete ring, handing out
fresh promise identifiers to successful `add`s and collecting the outcome
trace. -/
def runReads :
    PendingReadRing → ℕ → List ReadOp → PendingReadRing × List ReadOutcome
  | st, _, [] => (st, [])
  | st, nid, .add len :: ops =>
      match st.add len nid with
      | none =>
          let rest := runReads st nid ops
          (rest.1, .tooManyReads :: rest.2)
      | some st' =>
          let rest := runReads st' (nid + 1) ops
          (rest.1, .added nid :: rest.2)
  | st, nid, .resolve b :: ops =>
      let r := st.resolve b
      let rest := runReads r.1 nid ops
      (rest.1, r.2 ++ rest.2)
  | st, nid, .cancel :: ops =>
      let r := st.cancel
      let rest := runReads r.1 nid ops
      (rest.1, r.2 ++ rest.2)

/-- Reference semantics: a plain FIFO queue of capacity `k`.  `add` fails
exactly on a full queue, `resolve` settles the head, `cancel` rejects the
whole queue front to back. -/
def absRunReads (k : ℕ) :
    List PendingRead → ℕ → List ReadOp → List PendingRead × List ReadOutcome
  | q, _, [] => (q, [])
  | q, nid, .add len :: ops =>
      if q.length = k then
        let rest := absRunReads k q nid ops
        (rest.1, .tooManyReads :: rest.2)
      else
        let rest := absRunReads k (q ++ [⟨len, nid⟩]) (nid + 1) ops
        (rest.1, .added nid :: rest.2)
  | q, nid, .resolve b :: ops =>
      match q with
      | [] => absRunReads k [] nid ops
      | e :: q' =>
          let rest := absRunReads k q' nid ops
          (rest.1, .resolved e.id b :: rest.2)
  | q, nid, .cancel :: ops =>
      let rest := absRunReads k [] nid ops
      (rest.1, q.map (fun e => .rejected e.id) ++ rest.2)

/-- The logical FIFO queue held by a concrete ring: `size` entries starting
at the read pointer, wrapping around. -/
def queueOf (st : PendingReadRing) : List PendingRead :=
  (List.range st.size).map
    (fun i => st.pending.getD ((st.readPtr + i) % st.pending.length) default)

/-!
## Radio command executor
(src/radio/radio.ts `Radio`, single_thread source file `SingleThread`)

`SingleThread.run` chains each submitted async function onto the promise of
the previous one (`this.promise = this.promise.then(() => fn())`), so the
functions run strictly one after another; the executor is therefore embedded
as sequential composition of the command bodies.  A command body is a state
transformer that also records the calls it awaits on the signal source and
the radio events it dispatches.  The `Transfers` read loops launched by
`start` are fire-and-forget concurrent tasks, not awaited command steps; only
the synchronous prefix of `startStream` (the receiver `setSampleRate` call
and issuing the source's second `startReceiving`) happens inside the `start`
command.  Sources are modelled as deterministic responders that do not
throw. -/

/-- The responses of a `SignalSource` (signal_source source file): actual
sample rate, actual center frequency, and the value adopted for a parameter
(`none` models `void`). -/
structure SignalSource where
  rateResp : ℤ → ℤ
  freqResp : ℤ → ℤ
  paramResp : String → Option ℤ → Option ℤ

/-- A call awaited (or synchronously issued) on the signal source. -/
inductive SourceCall
  | setSampleRate (r : ℤ)
  | setCenterFrequency (f : ℤ)
  | setParameter (k : String) (v : Option ℤ)
  | startReceiving
  | close
deriving Repr, DecidableEq

/-- An externally observable event of one command execution. -/
inductive RadioEvent
  | src (c : SourceCall)
  | receiverSetSampleRate (r : ℤ)
  | started
  | stopped
deriving Repr, DecidableEq

/-- `State.OFF` / `State.PLAYING`. -/
inductive PlayState
  | off
  | playing
deriving Repr, DecidableEq

/-- The fields of `Radio` relevant to command processing. -/
structure RadioState where
  state : PlayState
  sampleRate : ℤ
  frequency : ℤ
  parameterValues : List (String × Option ℤ)
deriving Repr, DecidableEq

/-- The `Radio` constructor state: OFF, 1024000 samples/sec, 88.5 MHz, no
parameters. -/
def RadioState.new : RadioState :=
  ⟨.off, 1024000, 88500000, []⟩

/-- JavaScript `Map.set`: replaces the value in place for an existing key
(keeping insertion order), appends a new entry otherwise. -/
def mapSet (m : List (String × Option ℤ)) (k : String) (v : Option ℤ) :
    List (String × Option ℤ) :=
  if m.any (fun p => p.1 = k) then
    m.map (fun p => if p.1 = k then (k, v) else p)
  else m ++ [(k, v)]

/-- A command submitted to the radio through `SingleThread.run`. -/
inductive RadioCmd
  | start
  | stop
  | setFrequency (f : ℤ)
  | setParameter (k : String) (v : ℤ)
deriving Repr, DecidableEq

/-- The body of one radio command (radio.ts): the state update plus the
ordered list of source calls and radio events it performs. -/
def execCmd (S : SignalSource) (st : RadioState) :
    RadioCmd → RadioState × List RadioEvent
  | .start =>
      if st.state = .playing then (st, [])
      else
        let r1 := S.rateResp st.sampleRate
        let f1 := S.freqResp st.frequency
        ({ st with state := .playing, sampleRate := r1, frequency := f1 },
          [.src (.setSampleRate st.sampleRate),
           .src (.setCenterFrequency st.frequency)] ++
          st.parameterValues.map (fun p => .src (.setParameter p.1 p.2)) ++
          [.src .startReceiving, .receiverSetSampleRate r1,
           .src .startReceiving, .started])
  | .stop =>
      if st.state = .off then (st, [])
      else ({ st with state := .off }, [.src .close, .stopped])
  | .setFrequency f =>
      if st.state = .off then ({ st with frequency := f }, [])
      else if st.frequency = f then (st, [])
      else
        ({ st with frequency := S.freqResp f },
          [.src (.setCenterFrequency f)])
  | .setParameter k v =>
      if st.state = .off then
        ({ st with parameterValues := mapSet st.parameterValues k (some v) },
          [])
      else
        ({ st with
            parameterValues := mapSet st.parameterValues k
              (S.paramResp k (some v)) },
          [.src (.setParameter k (some v))])

/-- Executes submitted commands in submission order (the `SingleThread`
serialization), concatenating their event traces. -/
def runCmds (S : SignalSource) :
    RadioState → List RadioCmd → RadioState × List RadioEvent
  | st, [] => (st, [])
  | st, c :: cs =>
      let r := execCmd S st c
      let rest := runCmds S r.1 cs
      (rest.1, r.2 ++ rest.2)

/-- Coupling between a concrete `PendingReadRing` of capacity `k` and the
FIFO queue it represents: the pointers are in range, `writePtr` sits `size`
slots past `readPtr` (mod `k`), and the slots from the read pointer onward
hold the queue entries in order. -/
def ReadInv (k : ℕ) (st : PendingReadRing) (q : List PendingRead) : Prop :=
  st.pending.length = k ∧
  st.size = q.length ∧
  q.length ≤ k ∧
  st.readPtr < k ∧
  st.writePtr = (st.readPtr + st.size) % k ∧
  ∀ i, i < q.length →
    st.pending.getD ((st.readPtr + i) % k) default = q.getD i default

/-!
## Approximate arctangent (src/dsp/math.ts, `atan2`)

JavaScript numbers become real numbers; JavaScript division by zero is
modelled by Lean's total division (`x / 0 = 0`), and every theorem below that
evaluates `atan2Approx` keeps its denominators away from the `0 / 0` case.
-/

/-- The 7-term odd polynomial (in Horner form) at the heart of `atan2`;
`div * div` is the local `divSq`. -/
noncomputable def atan2Poly (div : ℝ) : ℝ :=
  div *
    (0.9999993329 +
      div * div *
        (-0.3332985605 +
          div * div *
            (0.1994653599 +
              div * div *
                (-0.1390853351 +
                  div * div *
                    (0.0964200441 +
                      div * div *
                        (-0.0559098861 +
                          div * div *
                            (0.0218612288 + div * div * -0.004054058)))))))

/-- The final quadrant fix-up of `atan2` applied to the polynomial value
`res`. -/
noncomputable def atan2Quadrant (imag real res : ℝ) : ℝ :=
  if 0 ≤ real then res
  else if 0 ≤ imag then res + Real.pi
  else res - Real.pi

/-- `atan2(imag, real)` from src/dsp/math.ts: swap to keep the ratio inside
[-1, 1], evaluate the polynomial (with the swapped branch reflected around
±π/2), then fix up the quadrant. -/
noncomputable def atan2Approx (imag real : ℝ) : ℝ :=
  if |real| < |imag| then
    atan2Quadrant imag real
      (if 0 ≤ real / imag then Real.pi / 2 - atan2Poly (real / imag)
        else -(Real.pi / 2) - atan2Poly (real / imag))
  else atan2Quadrant imag real (atan2Poly (imag / real))

/-!
## One-pole IIR filters (src/dsp/filters.ts, `decay`, `IIRLowPass`,
`IIRLowPassChain`)
-/

/-- `decay(sampleRate, timeConstant)`. -/
noncomputable def decay (sampleRate timeConstant : ℝ) : ℝ :=
  1 - Real.exp (-1 / (sampleRate * timeConstant))

/-- `frequencyToTimeConstant(freq)`. -/
noncomputable def frequencyToTimeConstant (freq : ℝ) : ℝ :=
  1 / (2 * Real.pi * freq)

/-- State of `IIRLowPass`: the time constant (kept for `phaseShift`), the
decay `alpha`, and the held value `val`. -/
structure IIRLowPass where
  timeConstant : ℝ
  alpha : ℝ
  val : ℝ

/-- The private `IIRLowPass` constructor. -/
noncomputable def IIRLowPass.ofTimeConstant (sampleRate timeConstant : ℝ) :
    IIRLowPass :=
  ⟨timeConstant, decay sampleRate timeConstant, 0⟩

/-- `IIRLowPass.forFrequency`. -/
noncomputable def IIRLowPass.forFrequency (sampleRate freq : ℝ) :
    IIRLowPass :=
  IIRLowPass.ofTimeConstant sampleRate (frequencyToTimeConstant freq)

/-- `IIRLowPass.add(sample)`: updates `val` and returns it. -/
noncomputable def IIRLowPass.add (f : IIRLowPass) (sample : ℝ) :
    IIRLowPass × ℝ :=
  let v := f.val + f.alpha * (sample - f.val)
  (⟨f.timeConstant, f.alpha, v⟩, v)

/-- `IIRLowPass.phaseShift(freq)`. -/
noncomputable def IIRLowPass.phaseShift (f : IIRLowPass) (freq : ℝ) : ℝ :=
  -Real.arctan (2 * Real.pi * freq * f.timeConstant)

/-- An `IIRLowPassChain` is its list of one-pole filters. -/
def IIRLowPassChain : Type := List IIRLowPass

/-- `IIRLowPassChain.forTimeConstant(count, sampleRate, timeConstant)`:
`count` identical one-pole filters with the bandwidth-corrected time
constant. -/
noncomputable def chainForTimeConstant (count : ℕ)
    (sampleRate timeConstant : ℝ) : IIRLowPassChain :=
  List.replicate count
    (IIRLowPass.ofTimeConstant sampleRate
      (timeConstant * Real.sqrt ((2 : ℝ) ^ ((1 : ℝ) / count) - 1)))

/-- `IIRLowPassChain.forFrequency(count, sampleRate, freq)`. -/
noncomputable def chainForFrequency (count : ℕ) (sampleRate freq : ℝ) :
    IIRLowPassChain :=
  chainForTimeConstant count sampleRate (frequencyToTimeConstant freq)

/-- `IIRLowPassChain.add(sample)`: feeds the sample through the filters in
order, returning the updated chain and the last filter's output. -/
noncomputable def chainAdd : IIRLowPassChain → ℝ → IIRLowPassChain × ℝ
  | [], sample => ([], sample)
  | f :: fs, sample =>
      let r := f.add sample
      let rest := chainAdd fs r.2
      (r.1 :: rest.1, rest.2)

/-- JavaScript's `%` on numbers: remainder after truncation toward zero. -/
noncomputable def jsMod (x y : ℝ) : ℝ :=
  x - y * (if 0 ≤ x / y then (⌊x / y⌋ : ℝ) else (⌈x / y⌉ : ℝ))

/-- `IIRLowPassChain.phaseShift(freq)`: sum of the per-filter shifts, wrapped
into (-π, π] with JavaScript's signed remainder. -/
noncomputable def chainPhaseShift (c : IIRLowPassChain) (freq : ℝ) : ℝ :=
  jsMod ((c.map (fun f => f.phaseShift freq)).sum + Real.pi)
      (2 * Real.pi) -
    Real.pi

/-!
## FM demodulator (src/dsp/demodulators.ts, `FMDemodulator`)
-/

/-- State of `FMDemodulator`: the output scale `mul = 1/(2π·maxDeviation)`
and the last sample `(lI, lQ)`. -/
structure FMDemodulator where
  mul : ℝ
  lI : ℝ
  lQ : ℝ

/-- The `FMDemodulator` constructor. -/
noncomputable def FMDemodulator.new (maxDeviation : ℝ) : FMDemodulator :=
  ⟨1 / (2 * Real.pi * maxDeviation), 0, 0⟩

/-- `FMDemodulator.demodulate` over a block given as a list of (I, Q) pairs:
per sample, multiply by the conjugate of the previous sample, output the
scaled angle, and remember the sample. -/
noncomputable def fmRun (st : FMDemodulator) :
    List (ℝ × ℝ) → FMDemodulator × List ℝ
  | [] => (st, [])
  | s :: rest =>
      let re := st.lI * s.1 + st.lQ * s.2
      let im := st.lI * s.2 - s.1 * st.lQ
      let r := fmRun ⟨st.mul, s.1, s.2⟩ rest
      (r.1, atan2Approx im re * st.mul :: r.2)

/-- The previous sample seen by the demodulator at index `i` of a block: the
carried state for `i = 0`, the preceding block sample otherwise. -/
noncomputable def fmPrevSample (st : FMDemodulator) (xs : List (ℝ × ℝ))
    (i : ℕ) : ℝ × ℝ :=
  if i = 0 then (st.lI, st.lQ) else xs.getD (i - 1) (0, 0)

/-!
## AM demodulator (src/dsp/demodulators.ts, `AMDemodulator`)
-/

/-- State of `AMDemodulator`: the smoother decay and the tracked carrier
amplitude. -/
structure AMDemodulator where
  alpha : ℝ
  carrierAmplitude : ℝ

/-- The `AMDemodulator` constructor: a 0.5-second one-pole smoother. -/
noncomputable def AMDemodulator.new (sampleRate : ℝ) : AMDemodulator :=
  ⟨decay sampleRate 0.5, 0⟩

/-- `AMDemodulator.demodulate` over a block of (I, Q) pairs: per sample,
update the carrier estimate with the envelope and output `r/carrier - 1`,
or 0 for a zero carrier. -/
noncomputable def amRun (st : AMDemodulator) :
    List (ℝ × ℝ) → AMDemodulator × List ℝ
  | [] => (st, [])
  | s :: rest =>
      let amplitude := Real.sqrt (s.1 * s.1 + s.2 * s.2)
      let c := st.carrierAmplitude + st.alpha * (amplitude - st.carrierAmplitude)
      let out := if c = 0 then (0 : ℝ) else amplitude / c - 1
      let r := amRun ⟨st.alpha, c⟩ rest
      (r.1, out :: r.2)

/-- The carrier estimate held after processing `i` samples of the block. -/
noncomputable def amCarrier (st : AMDemodulator) (xs : List (ℝ × ℝ)) :
    ℕ → ℝ
  | 0 => st.carrierAmplitude
  | i + 1 =>
      let s := xs.getD i (0, 0)
      amCarrier st xs i +
        st.alpha * (Real.sqrt (s.1 * s.1 + s.2 * s.2) - amCarrier st xs i)

/-!
## Pilot-detector PLL (src/dsp/filters.ts, `PLL`)

The method swap `this.add = this.addRemaining` after the first sample is
modelled by the `isFirst` flag.
-/

/-- The full `PLL` state. -/
structure PLL where
  sampleRate : ℝ
  phase : ℝ
  speed : ℝ
  maxSpeedCorr : ℝ
  speedCorrection : ℝ
  phaseCorrection : ℝ
  biFlt : IIRLowPassChain
  bqFlt : IIRLowPassChain
  siFlt : IIRLowPassChain
  sqFlt : IIRLowPassChain
  piFlt : IIRLowPassChain
  pqFlt : IIRLowPassChain
  lbI : ℝ
  lbQ : ℝ
  sgnLockFlt : IIRLowPass
  sgnLockThreshold : ℝ
  absLockFlt : IIRLowPass
  absLockThreshold : ℝ
  lockCounter : ℕ
  cos : ℝ
  sin : ℝ
  locked : Bool
  isFirst : Bool

/-- The `PLL` constructor. -/
noncomputable def pllInit (sampleRate freq tolerance : ℝ) : PLL where
  sampleRate := sampleRate
  phase := 0
  speed := 2 * Real.pi * freq / sampleRate
  maxSpeedCorr := 2 * Real.pi * tolerance / sampleRate
  speedCorrection := 0
  phaseCorrection := 0
  biFlt := chainForFrequency 4 sampleRate tolerance
  bqFlt := chainForFrequency 4 sampleRate tolerance
  siFlt := chainForFrequency 4 sampleRate 7
  sqFlt := chainForFrequency 4 sampleRate 7
  piFlt := chainForFrequency 4 sampleRate 250
  pqFlt := chainForFrequency 4 sampleRate 250
  lbI := 0
  lbQ := 0
  sgnLockFlt := IIRLowPass.forFrequency sampleRate 10
  sgnLockThreshold := 90 / 360 * (2 * Real.pi) / sampleRate
  absLockFlt := IIRLowPass.forFrequency sampleRate 10
  absLockThreshold := 15 * (2 * Real.pi) / sampleRate
  lockCounter := 0
  cos := 1
  sin := 0
  locked := true
  isFirst := true

/-- `PLL.add`, the first-sample variant. -/
noncomputable def pllAddFirst (st : PLL) (sample : ℝ) : PLL :=
  let rbi := chainAdd st.biFlt (Real.cos (-st.phase) * sample)
  let rbq := chainAdd st.bqFlt (Real.sin (-st.phase) * sample)
  { st with
      cos := Real.cos st.phase
      sin := Real.sin st.phase
      biFlt := rbi.1
      bqFlt := rbq.1
      lbI := rbi.2
      lbQ := rbq.2
      phase := st.phase + st.speed
      isFirst := false }

/-- `PLL.addRemaining`: the per-sample update used from the second sample
on. -/
noncomputable def pllAddRemaining (st : PLL) (sample : ℝ) : PLL :=
  let phase := st.phase
  let angle := phase + st.speedCorrection + st.phaseCorrection
  let rawI := Real.cos (-phase) * sample
  let rawQ := Real.sin (-phase) * sample
  let rbi := chainAdd st.biFlt rawI
  let rbq := chainAdd st.bqFlt rawQ
  let bI := rbi.2
  let bQ := rbq.2
  let rsI := st.lbI * bI + st.lbQ * bQ
  let rsQ := st.lbI * bQ - bI * st.lbQ
  let rsi := chainAdd st.siFlt rsI
  let rsq := chainAdd st.sqFlt rsQ
  let beatSpeed := atan2Approx rsq.2 rsi.2
  let speedCorr := max (-st.maxSpeedCorr) (min beatSpeed st.maxSpeedCorr)
  let speedCorrection := st.speedCorrection + speedCorr
  let cI := Real.cos speedCorrection
  let cQ := Real.sin speedCorrection
  let rdI := bI * cI + bQ * cQ
  let rdQ := cI * bQ - bI * cQ
  let rdi := chainAdd st.piFlt rdI
  let rdq := chainAdd st.pqFlt rdQ
  let freqCorrectionHz := speedCorr * st.sampleRate / (2 * Real.pi)
  let shift := chainPhaseShift rbi.1 freqCorrectionHz
  let phaseDiff := atan2Approx rdq.2 rdi.2 - shift
  let deriv := st.phaseCorrection - phaseDiff
  let rsgn := st.sgnLockFlt.add deriv
  let rabs := st.absLockFlt.add |deriv|
  let lockCounter :=
    if rabs.2 < st.absLockThreshold ∧ rsgn.2 < st.sgnLockThreshold then
      st.lockCounter + 1
    else 0
  { st with
      cos := Real.cos angle
      sin := Real.sin angle
      biFlt := rbi.1
      bqFlt := rbq.1
      phase := st.phase + st.speed
      siFlt := rsi.1
      sqFlt := rsq.1
      lbI := bI
      lbQ := bQ
      speedCorrection := speedCorrection
      piFlt := rdi.1
      pqFlt := rdq.1
      sgnLockFlt := rsgn.1
      absLockFlt := rabs.1
      phaseCorrection := phaseDiff
      lockCounter := lockCounter
      locked := decide (20 < lockCounter) }

/-- One call of the (self-replacing) `add` method. -/
noncomputable def pllStep (st : PLL) (sample : ℝ) : PLL :=
  if st.isFirst then pllAddFirst st sample else pllAddRemaining st sample

/-- Feeding a block of samples one by one. -/
noncomputable def pllProcess (st : PLL) (xs : List ℝ) : PLL :=
  xs.foldl pllStep st

/-- The PLL's smoothed beat-frequency estimate, read off the state: the
angle of the smoothed `(sI, sQ)` phasor held by the `siFlt`/`sqFlt`
chains. -/
noncomputable def chainValue (c : IIRLowPassChain) : ℝ :=
  (c.getD (c.length - 1) ⟨0, 0, 0⟩).val

/-- The speed estimate of the claim: `atan2(sQ, sI)` on the smoother
outputs. -/
noncomputable def pllSpeedEstimate (st : PLL) : ℝ :=
  atan2Approx (chainValue st.sqFlt) (chainValue st.siFlt)

/-- Whether one `addRemaining` step passed the phase-stability test: its
lock counter was incremented rather than reset. -/
noncomputable def pllConds (st : PLL) : List ℝ → List Bool
  | [] => []
  | x :: xs =>
      let st2 := pllStep st x
      if st.isFirst then pllConds st2 xs
      else decide (st2.lockCounter ≠ 0) :: pllConds st2 xs

/-- The length of the trailing all-`true` run of a boolean list. -/
def trailCount (l : List Bool) : ℕ :=
  (l.reverse.takeWhile (fun b => b)).length

/-!
## Frequency shifter (src/dsp/filters.ts, `FrequencyShifter`)

The per-sample phasor recursion is made explicit: `shifterPhasor` is the
`(cosine, sine)` pair entering iteration `i` of the loop.
-/

/-- State of `FrequencyShifter`. -/
structure FrequencyShifter where
  sampleRate : ℝ
  cosine : ℝ
  sine : ℝ

/-- The `FrequencyShifter` constructor. -/
noncomputable def FrequencyShifter.new (sampleRate : ℝ) : FrequencyShifter :=
  ⟨sampleRate, 1, 0⟩

/-- The phasor `(cosine, sine)` at the start of iteration `i` of
`inPlace(I, Q, freq)`. -/
noncomputable def shifterPhasor (sh : FrequencyShifter) (freq : ℝ) :
    ℕ → ℝ × ℝ
  | 0 => (sh.cosine, sh.sine)
  | i + 1 =>
      ((shifterPhasor sh freq i).1 *
          Real.cos (2 * Real.pi * freq / sh.sampleRate) -
        (shifterPhasor sh freq i).2 *
          Real.sin (2 * Real.pi * freq / sh.sampleRate),
       (shifterPhasor sh freq i).1 *
          Real.sin (2 * Real.pi * freq / sh.sampleRate) +
        (shifterPhasor sh freq i).2 *
          Real.cos (2 * Real.pi * freq / sh.sampleRate))

/-- Sample `i` of the shifted I component: `I[i]·cosine - Q[i]·sine`. -/
noncomputable def shifterOutI (sh : FrequencyShifter) (freq : ℝ)
    (I Q : ℕ → ℝ) (i : ℕ) : ℝ :=
  I i * (shifterPhasor sh freq i).1 - Q i * (shifterPhasor sh freq i).2

/-- Sample `i` of the shifted Q component: `I[i]·sine + Q[i]·cosine`. -/
noncomputable def shifterOutQ (sh : FrequencyShifter) (freq : ℝ)
    (I Q : ℕ → ℝ) (i : ℕ) : ℝ :=
  I i * (shifterPhasor sh freq i).2 + Q i * (shifterPhasor sh freq i).1

/-- The shifter state after an `inPlace` call over `n` samples. -/
noncomputable def FrequencyShifter.after (sh : FrequencyShifter) (freq : ℝ)
    (n : ℕ) : FrequencyShifter :=
  ⟨sh.sampleRate, (shifterPhasor sh freq n).1, (shifterPhasor sh freq n).2⟩

/-!
## FIR filter (src/dsp/filters.ts, `FIRFilter`)

`Float32Array`s become index functions paired with explicit lengths; indices
outside the array read 0.
-/

/-- State of `FIRFilter`: coefficients with their length, and the
`curSamples` history buffer with its length (`offset = coefsLen - 1` zeros
initially). -/
structure FIRFilter where
  coefs : ℕ → ℝ
  coefsLen : ℕ
  curSamples : ℕ → ℝ
  curLen : ℕ

/-- The `FIRFilter` constructor: zeroed history of length `coefsLen - 1`. -/
noncomputable def FIRFilter.new (coefs : ℕ → ℝ) (coefsLen : ℕ) : FIRFilter :=
  ⟨coefs, coefsLen, fun _ => 0, coefsLen - 1⟩

/-- `FIRFilter.loadSamples(block)`: keep the last `coefsLen - 1` history
values, then append the new block. -/
noncomputable def FIRFilter.loadSamples (f : FIRFilter) (block : ℕ → ℝ)
    (n : ℕ) : FIRFilter :=
  { f with
      curSamples := fun j =>
        if j < f.coefsLen - 1 then
          f.curSamples (f.curLen - (f.coefsLen - 1) + j)
        else block (j - (f.coefsLen - 1))
      curLen := n + (f.coefsLen - 1) }

/-- `FIRFilter.get(index)`: the dot product of the coefficients with the
history window starting at `index`. -/
noncomputable def FIRFilter.get (f : FIRFilter) (index : ℕ) : ℝ :=
  ∑ j ∈ Finset.range f.coefsLen, f.coefs j * f.curSamples (index + j)

/-!
## Low-pass kernel and block power

`makeLowPassKernel` (src/dsp/coefficients.ts) and `getPower`
(src/dsp/power.ts) are imported by the WBFM demodulator but their files are
not part of the source snapshot, so they are modelled from the spec.
-/

/-- The Hamming window of length `N` at tap `i`:
`0.54 - 0.46·cos(2πi/(N-1))`. -/
noncomputable def hammingWindow (N : ℕ) (i : ℕ) : ℝ :=
  0.54 - 0.46 * Real.cos (2 * Real.pi * i / ((N : ℝ) - 1))

/-- The sinc tap with cutoff `f` at sample rate `R` for an odd-length-`N`
kernel centered at `(N-1)/2`: `2f/R` at the center,
`sin(2πf·k/R)/(π·k)` at offset `k` from the center. -/
noncomputable def sincTap (R f : ℝ) (N : ℕ) (i : ℕ) : ℝ :=
  if (i : ℝ) = ((N : ℝ) - 1) / 2 then 2 * f / R
  else
    Real.sin (2 * Real.pi * f * ((i : ℝ) - ((N : ℝ) - 1) / 2) / R) /
      (Real.pi * ((i : ℝ) - ((N : ℝ) - 1) / 2))

/-- Modelled from the spec: `makeLowPassKernel(R, f, N, gain)` from the
missing src/dsp/coefficients.ts, per §4.3 of the spec — "given sample rate
R, corner frequency f, and odd length N, returns a Hamming-windowed sinc
with cutoff at f, normalized to unit DC gain.  An optional gain scalar
scales the entire kernel." -/
noncomputable def makeLowPassKernel (R f : ℝ) (N : ℕ) (gain : ℝ) :
    ℕ → ℝ := fun i =>
  if i < N then
    gain * (hammingWindow N i * sincTap R f N i) /
      ∑ j ∈ Finset.range N, hammingWindow N j * sincTap R f N j
  else 0

/-- Modelled from the spec: `getPower(I, Q)` from the missing
src/dsp/power.ts, per the spec's power ratios (§4.7) — the mean power of the
I/Q block of length `n`. -/
noncomputable def getPower (I Q : ℕ → ℝ) (n : ℕ) : ℝ :=
  (∑ i ∈ Finset.range n, (I i * I i + Q i * Q i)) / n

/-!
## Downsampler (src/dsp/resamplers.ts, `Downsampler` /
`ComplexDownsampler`)
-/

/-- State of `Downsampler`: the input/output rate quotient (the constructor
argument `ratio`) and the FIR filter built over the kernel. -/
structure Downsampler where
  rateFactor : ℝ
  filter : FIRFilter

/-- The length of the downsampled output: `floor(n / ratio)`. -/
noncomputable def downLen (d : Downsampler) (n : ℕ) : ℕ :=
  (⌊(n : ℝ) / d.rateFactor⌋).toNat

/-- `Downsampler.downsample`: load the block, then sample the filter at
`floor(i·ratio)`; returns the output and the updated state. -/
noncomputable def Downsampler.downsample (d : Downsampler) (samples : ℕ → ℝ)
    (n : ℕ) : (ℕ → ℝ) × Downsampler :=
  (fun i => (d.filter.loadSamples samples n).get (⌊(i : ℝ) * d.rateFactor⌋).toNat,
    ⟨d.rateFactor, d.filter.loadSamples samples n⟩)

/-- `new ComplexDownsampler(inRate, outRate, filterLen)`: one `Downsampler`
per component over the kernel `makeLowPassKernel(inRate, outRate/2,
filterLen)`. -/
noncomputable def complexDownsamplerNew (inRate outRate : ℝ)
    (filterLen : ℕ) : Downsampler × Downsampler :=
  (⟨inRate / outRate,
      FIRFilter.new (makeLowPassKernel inRate (outRate / 2) filterLen 1)
        filterLen⟩,
    ⟨inRate / outRate,
      FIRFilter.new (makeLowPassKernel inRate (outRate / 2) filterLen 1)
        filterLen⟩)

/-!
## WBFM first-stage demodulator (src/demod/demod-wbfm.ts,
`DemodWBFMStage1`)
-/

/-- The `Demodulated` result record (src/demod/modes.ts contract). -/
structure Demodulated where
  left : List ℝ
  right : List ℝ
  stereo : Bool
  snr : ℝ

/-- State of `DemodWBFMStage1`. -/
structure DemodWBFMStage1 where
  outRate : ℝ
  shifter : FrequencyShifter
  downsampler : Option (Downsampler × Downsampler)
  filterI : FIRFilter
  filterQ : FIRFilter
  demodulator : FMDemodulator

/-- The `DemodWBFMStage1` constructor: `maxF = 75000`, a downsampler only
when the rates differ, a 151-tap low-pass at 75 kHz, and an FM discriminator
with deviation `maxF/outRate`. -/
noncomputable def DemodWBFMStage1.new (inRate outRate : ℝ) :
    DemodWBFMStage1 where
  outRate := outRate
  shifter := FrequencyShifter.new inRate
  downsampler :=
    if inRate = outRate then none
    else some (complexDownsamplerNew inRate outRate 151)
  filterI := FIRFilter.new (makeLowPassKernel outRate 75000 151 1) 151
  filterQ := FIRFilter.new (makeLowPassKernel outRate 75000 151 1) 151
  demodulator := FMDemodulator.new (75000 / outRate)

/-- The I/Q block (with its length) entering the power measurements of
`DemodWBFMStage1.demodulate`: the input after the frequency shift by
`-freqOffset` and, when present, the complex downsampler. -/
noncomputable def stage1Down (st : DemodWBFMStage1) (I Q : ℕ → ℝ) (n : ℕ)
    (freqOffset : ℝ) : (ℕ → ℝ) × (ℕ → ℝ) × ℕ :=
  match st.downsampler with
  | none =>
      (fun i => shifterOutI st.shifter (-freqOffset) I Q i,
        fun i => shifterOutQ st.shifter (-freqOffset) I Q i, n)
  | some d =>
      ((d.1.downsample (fun i => shifterOutI st.shifter (-freqOffset) I Q i)
          n).1,
        (d.2.downsample (fun i => shifterOutQ st.shifter (-freqOffset) I Q i)
          n).1,
        downLen d.1 n)

/-- `allPower` of `DemodWBFMStage1.demodulate`: the power of the
downsampled block before the 75 kHz low-pass. -/
noncomputable def stage1TotalPower (st : DemodWBFMStage1) (I Q : ℕ → ℝ)
    (n : ℕ) (freqOffset : ℝ) : ℝ :=
  getPower (stage1Down st I Q n freqOffset).1
    (stage1Down st I Q n freqOffset).2.1 (stage1Down st I Q n freqOffset).2.2

/-- The power of the same block measured after the 75 kHz low-pass (the
`getPower(I, Q)` factor of `signalPower`, before the `outRate/150000`
scaling). -/
noncomputable def stage1InBandPower (st : DemodWBFMStage1) (I Q : ℕ → ℝ)
    (n : ℕ) (freqOffset : ℝ) : ℝ :=
  getPower
    (fun i =>
      (st.filterI.loadSamples (stage1Down st I Q n freqOffset).1
        (stage1Down st I Q n freqOffset).2.2).get i)
    (fun i =>
      (st.filterQ.loadSamples (stage1Down st I Q n freqOffset).2.1
        (stage1Down st I Q n freqOffset).2.2).get i)
    (stage1Down st I Q n freqOffset).2.2

/-- `DemodWBFMStage1.demodulate(I, Q, freqOffset)`: shift, downsample,
measure `allPower`, filter, measure the scaled `signalPower`, FM-demodulate,
and report `snr = signalPower / allPower`; returns the result and the
updated stage state. -/
noncomputable def stage1Demodulate (st : DemodWBFMStage1) (I Q : ℕ → ℝ)
    (n : ℕ) (freqOffset : ℝ) : Demodulated × DemodWBFMStage1 :=
  let dn := (stage1Down st I Q n freqOffset).2.2
  let fI := st.filterI.loadSamples (stage1Down st I Q n freqOffset).1 dn
  let fQ := st.filterQ.loadSamples (stage1Down st I Q n freqOffset).2.1 dn
  let signalPower := stage1InBandPower st I Q n freqOffset * st.outRate / 150000
  let fm := fmRun st.demodulator
    ((List.range dn).map (fun i => (fI.get i, fQ.get i)))
  (⟨fm.2, fm.2, false, signalPower / stage1TotalPower st I Q n freqOffset⟩,
    ⟨st.outRate, st.shifter.after (-freqOffset) n,
      (match st.downsampler with
        | none => none
        | some d =>
            some
              ((d.1.downsample
                  (fun i => shifterOutI st.shifter (-freqOffset) I Q i)
                  n).2,
                (d.2.downsample
                  (fun i => shifterOutQ st.shifter (-freqOffset) I Q i)
                  n).2)),
      fI, fQ, fm.1⟩)

/-!
## Radix-2 FFT (src/dsp/fft.ts, `FFT` and `doFastTransform`)

The two separate `Float32Array`s of real and imaginary parts become one
array of complex numbers (the source computes the complex products
componentwise).  `reverseBits` is the bit-reversal helper; `fftPass` is one
butterfly stage of half-size `M` (`dftSize = 2M`), with the coefficient
`tw s M j = cos(-πj/M) + s·sin(-πj/M)·i` exactly as `makeFftCoefficients`
precomputes it and `doFastTransform` applies it (`s = 1` forward, `s = -1`
reverse); `fftBase` is the fused radix-4 first loop of `doFastTransform`,
and `doFastTransform s m` chains it with the stages `dftSize = 8 … 2^m`.
`transform` loads `window[i]·x[i]/N` at the bit-reversed positions and runs
the forward stages; `reverse` loads unscaled and runs the reverse stages.
-/

/-- `reverseBits(num, bits)`: the `bits`-bit reversal of `num`. -/
def reverseBits : ℕ → ℕ → ℕ
  | 0, _ => 0
  | b + 1, n => n % 2 * 2 ^ b + reverseBits b (n / 2)

/-- The stage coefficient `coefs[bin][j]` with the direction sign `s`
applied to its imaginary part: `exp(-s·π·j/M·i)`. -/
noncomputable def tw (s : ℤ) (M j : ℕ) : ℂ :=
  Complex.exp (-(s : ℂ) * Real.pi * j / M * Complex.I)

/-- One butterfly stage with half-size `M`: position `i` combines the pair
`(i, i+M)` (or `(i-M, i)`) inside its `2M`-aligned block. -/
noncomputable def fftPass (s : ℤ) (M : ℕ) (A : ℕ → ℂ) : ℕ → ℂ := fun i =>
  if i % (2 * M) < M then A i + tw s M (i % (2 * M)) * A (i + M)
  else A (i - M) - tw s M (i % (2 * M) - M) * A i

/-- Butterfly stages of half-sizes `2^0, …, 2^(m-1)` in order. -/
noncomputable def fftStages (s : ℤ) : ℕ → (ℕ → ℂ) → ℕ → ℂ
  | 0, A => A
  | t + 1, A => fftPass s (2 ^ t) (fftStages s t A)

/-- The fused first loop of `doFastTransform`: the size-4 DFT of each
aligned quadruple, with `s` on the imaginary cross terms. -/
noncomputable def fftBase (s : ℤ) (A : ℕ → ℂ) : ℕ → ℂ := fun i =>
  if i % 4 = 0 then
    A (4 * (i / 4)) + A (4 * (i / 4) + 1) + A (4 * (i / 4) + 2) +
      A (4 * (i / 4) + 3)
  else if i % 4 = 1 then
    A (4 * (i / 4)) - A (4 * (i / 4) + 1) -
      (s : ℂ) * Complex.I * (A (4 * (i / 4) + 2) - A (4 * (i / 4) + 3))
  else if i % 4 = 2 then
    A (4 * (i / 4)) + A (4 * (i / 4) + 1) - A (4 * (i / 4) + 2) -
      A (4 * (i / 4) + 3)
  else
    A (4 * (i / 4)) - A (4 * (i / 4) + 1) +
      (s : ℂ) * Complex.I * (A (4 * (i / 4) + 2) - A (4 * (i / 4) + 3))

/-- `doFastTransform` over `2^m` points: the radix-4 base loop, then the
stages with `dftSize = 8, 16, …, 2^m`. -/
noncomputable def doFastTransform (s : ℤ) : ℕ → (ℕ → ℂ) → ℕ → ℂ
  | 0, A => fftBase s A
  | 1, A => fftBase s A
  | 2, A => fftBase s A
  | m + 3, A => fftPass s (2 ^ (m + 2)) (doFastTransform s (m + 2) A)

/-- `FFT.transform` of length `2^m` with window `w`: load
`w[i]·x[i]/length` at the bit-reversed positions and run the forward
stages. -/
noncomputable def fftTransform (m : ℕ) (w x : ℕ → ℂ) : ℕ → ℂ :=
  doFastTransform 1 m
    (fun p => w (reverseBits m p) * x (reverseBits m p) / (2 ^ m : ℂ))

/-- `FFT.reverse` of length `2^m`: load unscaled at the bit-reversed
positions and run the reverse stages. -/
noncomputable def fftReverse (m : ℕ) (X : ℕ → ℂ) : ℕ → ℂ :=
  doFastTransform (-1) m (fun p => X (reverseBits m p))

/-- The reference discrete Fourier exponential
`exp(-s·2π·t/N·i)` with integer argument `t`. -/
noncomputable def twN (s : ℤ) (N : ℕ) (t : ℤ) : ℂ :=
  Complex.exp (-(s : ℂ) * (2 * Real.pi) * t / N * Complex.I)

/-- The reference DFT of size `N` with direction `s`. -/
noncomputable def dft (s : ℤ) (N : ℕ) (x : ℕ → ℂ) : ℕ → ℂ := fun k =>
  ∑ l ∈ Finset.range N, x l * twN s N (k * l)

end Signals

namespace Signals

/-! ### Helper lemmas -/

theorem getD_set_self {α : Type} [Inhabited α] :
    ∀ (l : List α) (i : ℕ), i < l.length → ∀ a : α,
      (l.set i a).getD i default = a
  | _ :: _, 0, _, _ => rfl
  | _ :: xs, i + 1, h, a => getD_set_self xs i (by simpa using h) a

theorem getD_set_ne {α : Type} [Inhabited α] :
    ∀ (l : List α) (i j : ℕ), i ≠ j → ∀ a : α,
      (l.set i a).getD j default = l.getD j default
  | [], _, _, _, _ => rfl
  | _ :: _, 0, 0, h, _ => absurd rfl h
  | _ :: _, 0, _ + 1, _, _ => rfl
  | _ :: _, _ + 1, 0, _, _ => rfl
  | _ :: xs, i + 1, j + 1, h, a =>
      getD_set_ne xs i j (fun he => h (by omega)) a

theorem add_mod_inj {k r i s : ℕ} (hi : i < k) (hs : s < k)
    (h : (r + i) % k = (r + s) % k) : i = s := by
  have h1 : (r + i) % k % k = (r + s) % k % k := by rw [h]
  have h2 : i % k = s % k :=
    Nat.ModEq.add_left_cancel (Nat.ModEq.refl r) h
  rwa [Nat.mod_eq_of_lt hi, Nat.mod_eq_of_lt hs] at h2

/-! ### Pending-read ring refinement -/

theorem readInv_new (k : ℕ) (hk : 0 < k) :
    ReadInv k (PendingReadRing.new k) [] := by
  refine ⟨by simp [PendingReadRing.new], rfl, Nat.zero_le k, hk,
    by simp [PendingReadRing.new], ?_⟩
  intro i hi
  simp at hi

theorem readInv_add_full {k : ℕ} {st : PendingReadRing} {q : List PendingRead}
    (h : ReadInv k st q) (hq : q.length = k) (len id : ℕ) :
    st.add len id = none := by
  obtain ⟨hlen, hsize, _, _, _, _⟩ := h
  simp [PendingReadRing.add, hlen, hsize, hq]

theorem readInv_add {k : ℕ} {st : PendingReadRing} {q : List PendingRead}
    (h : ReadInv k st q) (hq : q.length ≠ k) (len id : ℕ) :
    ∃ st', st.add len id = some st' ∧
      ReadInv k st' (q ++ [⟨len, id⟩]) := by
  obtain ⟨hlen, hsize, hle, hr, hw, hslots⟩ := h
  have hlt : q.length < k := lt_of_le_of_ne hle hq
  have hk : 0 < k := lt_of_le_of_lt (Nat.zero_le _) hlt
  have hwlt : st.writePtr < k := by
    rw [hw]; exact Nat.mod_lt _ hk
  refine ⟨⟨st.pending.set st.writePtr ⟨len, id⟩, (st.writePtr + 1) % k,
    st.readPtr, st.size + 1⟩, ?_, ?_⟩
  · simp only [PendingReadRing.add, hlen, hsize]
    rw [if_neg hq]
  · refine ⟨by simpa using hlen, by simp [hsize], by simpa using hlt, hr,
      ?_, ?_⟩
    · show (st.writePtr + 1) % k = (st.readPtr + (st.size + 1)) % k
      conv_lhs => rw [hw]
      rw [Nat.mod_add_mod]
      exact congrArg (fun t => t % k) (by omega)
    · intro i hi
      show (st.pending.set st.writePtr (PendingRead.mk len id)).getD
          ((st.readPtr + i) % k) default =
            (q ++ [PendingRead.mk len id]).getD i default
      rcases Nat.lt_or_ge i q.length with hilt | hige
      · have hne : st.writePtr ≠ (st.readPtr + i) % k := by
          rw [hw, hsize]
          intro he
          have : i = q.length :=
            add_mod_inj (lt_of_lt_of_le hilt hle) hlt he.symm
          omega
        rw [getD_set_ne _ _ _ hne, hslots i hilt,
          List.getD_append _ _ _ _ hilt]
      · have hieq : i = q.length := by
          simp only [List.length_append, List.length_singleton] at hi
          omega
        subst hieq
        have hpos : st.writePtr = (st.readPtr + q.length) % k := by
          rw [hw, hsize]
        rw [← hpos, getD_set_self _ _ (by rw [hlen]; exact hwlt)]
        simp

theorem readInv_resolve_cons {k : ℕ} {st : PendingReadRing}
    {e : PendingRead} {q' : List PendingRead}
    (h : ReadInv k st (e :: q')) (b : ℕ) :
    st.resolve b =
      ({ st with readPtr := (st.readPtr + 1) % k, size := st.size - 1 },
        [.resolved e.id b]) ∧
    ReadInv k { st with readPtr := (st.readPtr + 1) % k
                        size := st.size - 1 } q' := by
  obtain ⟨hlen, hsize, hle, hr, hw, hslots⟩ := h
  have hk : 0 < k := lt_of_le_of_lt (Nat.zero_le _) hr
  have hs0 : st.size ≠ 0 := by
    rw [hsize]; simp
  have hhead : st.pending.getD st.readPtr default = e := by
    have h0 := hslots 0 (by simp)
    rwa [Nat.add_zero, Nat.mod_eq_of_lt hr] at h0
  constructor
  · simp only [PendingReadRing.resolve]
    rw [if_neg hs0, hlen, hhead]
  · refine ⟨hlen, by simp [hsize],
      by simp only [List.length_cons] at hle; omega,
      Nat.mod_lt _ hk, ?_, ?_⟩
    · show st.writePtr = ((st.readPtr + 1) % k + (st.size - 1)) % k
      rw [Nat.mod_add_mod, hw]
      congr 1
      omega
    · intro i hi
      show st.pending.getD (((st.readPtr + 1) % k + i) % k) default
            = q'.getD i default
      rw [Nat.mod_add_mod]
      have hstep := hslots (i + 1) (by simpa using Nat.succ_lt_succ hi)
      calc st.pending.getD ((st.readPtr + 1 + i) % k) default
          = st.pending.getD ((st.readPtr + (i + 1)) % k) default := by
            congr 2
            omega
        _ = (e :: q').getD (i + 1) default := hstep
        _ = q'.getD i default := rfl

theorem readInv_resolve_nil {k : ℕ} {st : PendingReadRing}
    (h : ReadInv k st []) (b : ℕ) : st.resolve b = (st, []) := by
  have hsize : st.size = 0 := h.2.1
  simp [PendingReadRing.resolve, hsize]

theorem readInv_cancelGo {k : ℕ} :
    ∀ (q : List PendingRead) (st : PendingReadRing), ReadInv k st q →
      (cancelGo st.size st).2 = q.map (fun e => .rejected e.id) ∧
      ReadInv k (cancelGo st.size st).1 []
  | [], st, h => by
      have hsize : st.size = 0 := h.2.1
      rw [hsize]
      exact ⟨rfl, h⟩
  | e :: q', st, h => by
      have hsize : st.size = q'.length + 1 := h.2.1
      have hr : st.readPtr < k := h.2.2.2.1
      have hhead : st.pending.getD st.readPtr default = e := by
        have h0 := h.2.2.2.2.2 0 (by simp)
        rwa [Nat.add_zero, Nat.mod_eq_of_lt hr] at h0
      have hres := readInv_resolve_cons h 0
      have hinv' := hres.2
      have hsz' : ({ st with readPtr := (st.readPtr + 1) % k
                             size := st.size - 1 } :
          PendingReadRing).size = q'.length := by
        simp [hsize]
      have ih := readInv_cancelGo q'
        { st with readPtr := (st.readPtr + 1) % k, size := st.size - 1 }
        hinv'
      rw [hsz'] at ih
      have hlen : st.pending.length = k := h.1
      rw [hsize]
      show (cancelGo (q'.length + 1) st).2 = _ ∧ _
      have hunfold : cancelGo (q'.length + 1) st =
          ((cancelGo q'.length
              { st with readPtr := (st.readPtr + 1) % st.pending.length
                        size := st.size - 1 }).1,
            ReadOutcome.rejected (st.pending.getD st.readPtr default).id ::
              (cancelGo q'.length
                { st with readPtr := (st.readPtr + 1) % st.pending.length
                          size := st.size - 1 }).2) := rfl
      rw [hunfold, hlen, hhead]
      exact ⟨by rw [ih.1]; rfl, ih.2⟩


theorem runReads_absRun {k : ℕ} :
    ∀ (ops : List ReadOp) (st : PendingReadRing) (q : List PendingRead)
      (nid : ℕ), ReadInv k st q →
      (runReads st nid ops).2 = (absRunReads k q nid ops).2 ∧
      ReadInv k (runReads st nid ops).1 (absRunReads k q nid ops).1
  | [], st, q, nid, h => ⟨rfl, h⟩
  | .add len :: ops, st, q, nid, h => by
      by_cases hq : q.length = k
      · have hadd := readInv_add_full h hq len nid
        have ih := runReads_absRun ops st q nid h
        simp only [runReads, absRunReads, hadd]
        rw [if_pos hq]
        exact ⟨by rw [ih.1], ih.2⟩
      · obtain ⟨st', hadd, hinv'⟩ := readInv_add h hq len nid
        have ih := runReads_absRun ops st' (q ++ [⟨len, nid⟩]) (nid + 1) hinv'
        simp only [runReads, absRunReads, hadd]
        rw [if_neg hq]
        exact ⟨by rw [ih.1], ih.2⟩
  | .resolve b :: ops, st, q, nid, h => by
      match q, h with
      | [], h =>
          have hres := readInv_resolve_nil h b
          have ih := runReads_absRun ops st [] nid h
          simp only [runReads, absRunReads, hres]
          exact ⟨by rw [ih.1]; rfl, ih.2⟩
      | e :: q', h =>
          have hres := readInv_resolve_cons h b
          have ih := runReads_absRun ops _ q' nid hres.2
          simp only [runReads, absRunReads, hres.1]
          exact ⟨by rw [ih.1]; rfl, ih.2⟩
  | .cancel :: ops, st, q, nid, h => by
      have hc := readInv_cancelGo q st h
      have ih := runReads_absRun ops (cancelGo st.size st).1 [] nid hc.2
      simp only [runReads, absRunReads, PendingReadRing.cancel]
      refine ⟨?_, ih.2⟩
      rw [hc.1, ih.1]

theorem readInv_queueOf {k : ℕ} {st : PendingReadRing}
    {q : List PendingRead} (h : ReadInv k st q) : queueOf st = q := by
  obtain ⟨hlen, hsize, _, _, _, hslots⟩ := h
  apply List.ext_getElem
  · simp [queueOf, hsize]
  · intro i h1 h2
    simp only [queueOf, List.getElem_map, List.getElem_range]
    rw [hlen]
    have hi : i < q.length := by
      simpa [queueOf, hsize] using h1
    rw [hslots i hi, List.getD_eq_getElem _ _ hi]

end Signals

namespace Signals

/-! ### Claim theorems: ring buffer -/

/--
Claim C4 (code-bug evidence).  The claim states that `copyTo(dst)` places the
latest `min(|dst|, available)` samples right-aligned in `dst`, so that the
last stored sample lands at `dst[|dst|-1]`.  On this code, with a capacity-4
ring holding the two samples 10, 20, `copyTo` into a zeroed length-3
destination yields `[10, 20, 0]`: the samples are written starting at
`dst[0]`, the last stored sample 20 lands at `dst[1]`, and `dst[2]` keeps its
old value — not the right-aligned `[0, 10, 20]` the claim (and the
repository's own `buffers.test.ts`) requires.
-/
theorem copyTo_left_aligns_on_partial_fill :
    ((RingBuffer.new ℤ 4).store [10, 20]).copyTo [0, 0, 0] = [10, 20, 0] ∧
    ((RingBuffer.new ℤ 4).store [10, 20]).copyTo [0, 0, 0] ≠ [0, 10, 20] := by
  decide

/--
Claim C5 (code-bug evidence).  The claim states that after any store —
including a single store larger than the capacity C — the ring holds the most
recent `min(C, total stored)` samples.  On this code, storing `[1, 2, 3]`
into a capacity-2 ring keeps the *first* two samples of the oversized block:
a subsequent `moveTo` yields `[1, 2]`, not the most recent samples `[2, 3]`
required by the claim (and asserted by the repository's `buffers.test.ts`
for oversized stores).
-/
theorem store_oversized_keeps_oldest :
    ((((RingBuffer.new ℤ 2).store [1, 2, 3]).moveTo [0, 0]).1 = [1, 2] ∧
      ((((RingBuffer.new ℤ 2).store [1, 2, 3]).moveTo [0, 0]).2.1 = 2)) ∧
    (((RingBuffer.new ℤ 2).store [1, 2, 3]).moveTo [0, 0]).1 ≠ [2, 3] := by
  decide

/-! ### Claim theorems: pending-read ring -/

/--
Claim C3.  The pending-read ring of capacity `k` behaves exactly like a FIFO
queue bounded by `k`: running any operation sequence against the concrete
modular ring produces the same outcome trace as the reference queue — so
`add` on a full ring fails synchronously with *too-many-reads* and enqueues
nothing, `resolve` settles pending reads in the order they were added
(independently of when blocks arrive), and `cancel` rejects every pending
read with *transfer-canceled* front to back — and the final ring contents
coincide with the final reference queue (in particular the ring is empty
after a trailing `cancel`).  The sources instantiate the ring with the
default capacity 8.
-/
theorem pendingReadRing_fifo (k : ℕ) (ops : List ReadOp) (hk : 0 < k) :
    (runReads (PendingReadRing.new k) 0 ops).2 =
      (absRunReads k [] 0 ops).2 ∧
    queueOf (runReads (PendingReadRing.new k) 0 ops).1 =
      (absRunReads k [] 0 ops).1 ∧
    defaultPendingReadCapacity = 8 := by
  have h := runReads_absRun ops (PendingReadRing.new k) [] 0
    (readInv_new k hk)
  exact ⟨h.1, readInv_queueOf h.2, rfl⟩

/-! ### FM demodulator lemmas -/

theorem fmPrevSample_cons (st : FMDemodulator) (s : ℝ × ℝ)
    (rest : List (ℝ × ℝ)) (i : ℕ) :
    fmPrevSample ⟨st.mul, s.1, s.2⟩ rest i =
      fmPrevSample st (s :: rest) (i + 1) := by
  cases i with
  | zero => simp [fmPrevSample]
  | succ n => simp [fmPrevSample]

theorem fmRun_out :
    ∀ (xs : List (ℝ × ℝ)) (st : FMDemodulator) (i : ℕ), i < xs.length →
      (fmRun st xs).2.getD i 0 =
        atan2Approx
          ((fmPrevSample st xs i).1 * (xs.getD i (0, 0)).2 -
            (xs.getD i (0, 0)).1 * (fmPrevSample st xs i).2)
          ((fmPrevSample st xs i).1 * (xs.getD i (0, 0)).1 +
            (fmPrevSample st xs i).2 * (xs.getD i (0, 0)).2) * st.mul
  | [], _, i, hi => absurd hi (by simp)
  | s :: rest, st, 0, _ => by
      simp [fmRun, fmPrevSample]
  | s :: rest, st, i + 1, hi => by
      have ih := fmRun_out rest ⟨st.mul, s.1, s.2⟩ i (by simpa using hi)
      simp only [fmRun, List.getD_cons_succ]
      rw [ih, fmPrevSample_cons]

theorem fmRun_final :
    ∀ (xs : List (ℝ × ℝ)) (st : FMDemodulator),
      (fmRun st xs).1 =
        ⟨st.mul, (fmPrevSample st xs xs.length).1,
          (fmPrevSample st xs xs.length).2⟩
  | [], st => by simp [fmRun, fmPrevSample]
  | s :: rest, st => by
      have ih := fmRun_final rest ⟨st.mul, s.1, s.2⟩
      simp only [fmRun, List.length_cons]
      rw [ih, fmPrevSample_cons]

theorem fmRun_append :
    ∀ (xs ys : List (ℝ × ℝ)) (st : FMDemodulator),
      fmRun st (xs ++ ys) =
        ((fmRun (fmRun st xs).1 ys).1,
          (fmRun st xs).2 ++ (fmRun (fmRun st xs).1 ys).2)
  | [], ys, st => by simp [fmRun]
  | s :: rest, ys, st => by
      simp only [List.cons_append, fmRun]
      rw [show rest.append ys = rest ++ ys from rfl,
        fmRun_append rest ys ⟨st.mul, s.1, s.2⟩]

/-! ### AM demodulator lemmas -/

theorem amCarrier_succ (st : AMDemodulator) (xs : List (ℝ × ℝ)) (i : ℕ) :
    amCarrier st xs (i + 1) =
      amCarrier st xs i +
        st.alpha *
          (Real.sqrt
              ((xs.getD i (0, 0)).1 * (xs.getD i (0, 0)).1 +
                (xs.getD i (0, 0)).2 * (xs.getD i (0, 0)).2) -
            amCarrier st xs i) := rfl

theorem amCarrier_cons (st : AMDemodulator) (s : ℝ × ℝ)
    (rest : List (ℝ × ℝ)) :
    ∀ i : ℕ,
      amCarrier
        ⟨st.alpha,
          st.carrierAmplitude +
            st.alpha *
              (Real.sqrt (s.1 * s.1 + s.2 * s.2) - st.carrierAmplitude)⟩
        rest i =
      amCarrier st (s :: rest) (i + 1)
  | 0 => by simp [amCarrier]
  | i + 1 => by
      have ih := amCarrier_cons st s rest i
      rw [amCarrier_succ, amCarrier_succ, ih, List.getD_cons_succ]

theorem amRun_out :
    ∀ (xs : List (ℝ × ℝ)) (st : AMDemodulator) (i : ℕ), i < xs.length →
      (amRun st xs).2.getD i 0 =
        (if amCarrier st xs (i + 1) = 0 then (0 : ℝ)
          else
            Real.sqrt
                ((xs.getD i (0, 0)).1 * (xs.getD i (0, 0)).1 +
                  (xs.getD i (0, 0)).2 * (xs.getD i (0, 0)).2) /
                amCarrier st xs (i + 1) -
              1)
  | [], _, i, hi => absurd hi (by simp)
  | s :: rest, st, 0, _ => by
      simp only [amRun, List.getD_cons_zero, List.getD_cons_succ]
      have h1 : amCarrier st (s :: rest) 1 =
          st.carrierAmplitude +
            st.alpha *
              (Real.sqrt (s.1 * s.1 + s.2 * s.2) - st.carrierAmplitude) := by
        simp [amCarrier]
      rw [h1]
  | s :: rest, st, i + 1, hi => by
      have ih := amRun_out rest
        ⟨st.alpha,
          st.carrierAmplitude +
            st.alpha *
              (Real.sqrt (s.1 * s.1 + s.2 * s.2) - st.carrierAmplitude)⟩
        i (by simpa using hi)
      simp only [amRun, List.getD_cons_succ]
      rw [ih, amCarrier_cons]

theorem amRun_final :
    ∀ (xs : List (ℝ × ℝ)) (st : AMDemodulator),
      (amRun st xs).1 = ⟨st.alpha, amCarrier st xs xs.length⟩
  | [], st => by simp [amRun, amCarrier]
  | s :: rest, st => by
      simp only [amRun, List.length_cons]
      rw [amRun_final rest _, amCarrier_cons]

theorem decay_nonneg_le_one {R tc : ℝ} (hR : 0 < R) (htc : 0 < tc) :
    0 ≤ decay R tc ∧ decay R tc ≤ 1 := by
  unfold decay
  have h2 : 0 < 1 / (R * tc) := div_pos one_pos (mul_pos hR htc)
  have h3 : -1 / (R * tc) ≤ 0 := by
    rw [neg_div]
    linarith
  have h1 : Real.exp (-1 / (R * tc)) ≤ 1 := by
    calc Real.exp (-1 / (R * tc)) ≤ Real.exp 0 := Real.exp_le_exp.mpr h3
      _ = 1 := Real.exp_zero
  have h4 := Real.exp_pos (-1 / (R * tc))
  constructor
  · linarith
  · linarith

theorem amCarrier_nonneg {st : AMDemodulator} (ha0 : 0 ≤ st.alpha)
    (ha1 : st.alpha ≤ 1) (hc : 0 ≤ st.carrierAmplitude)
    (xs : List (ℝ × ℝ)) : ∀ i, 0 ≤ amCarrier st xs i
  | 0 => hc
  | i + 1 => by
      have ih := amCarrier_nonneg ha0 ha1 hc xs i
      have hs : 0 ≤ Real.sqrt
          ((xs.getD i (0, 0)).1 * (xs.getD i (0, 0)).1 +
            (xs.getD i (0, 0)).2 * (xs.getD i (0, 0)).2) :=
        Real.sqrt_nonneg _
      simp only [amCarrier]
      nlinarith

/-! ### Claim theorems: FM and AM demodulators -/

/--
Claim C6.  For a demodulator constructed for maximum deviation `d` (so its
scale is `1/(2π·d)`), every output sample is
`atan2(lI·Q[i] − I[i]·lQ, lI·I[i] + lQ·Q[i]) / (2π·d)` where `(lI, lQ)` is
the sample preceding `i` (the carried state for `i = 0`); the state after a
block is the block's last sample (scale unchanged), and processing a
concatenation equals processing the blocks in sequence — the previous sample
is carried across consecutive calls.
-/
theorem fm_demodulator_formula (d : ℝ) (st : FMDemodulator)
    (hmul : st.mul = 1 / (2 * Real.pi * d)) (xs ys : List (ℝ × ℝ)) (i : ℕ)
    (hi : i < xs.length) :
    (fmRun st xs).2.getD i 0 =
      atan2Approx
        ((fmPrevSample st xs i).1 * (xs.getD i (0, 0)).2 -
          (xs.getD i (0, 0)).1 * (fmPrevSample st xs i).2)
        ((fmPrevSample st xs i).1 * (xs.getD i (0, 0)).1 +
          (fmPrevSample st xs i).2 * (xs.getD i (0, 0)).2) /
        (2 * Real.pi * d) ∧
    (fmRun st xs).1 =
      ⟨st.mul, (fmPrevSample st xs xs.length).1,
        (fmPrevSample st xs xs.length).2⟩ ∧
    fmRun st (xs ++ ys) =
      ((fmRun (fmRun st xs).1 ys).1,
        (fmRun st xs).2 ++ (fmRun (fmRun st xs).1 ys).2) := by
  refine ⟨?_, fmRun_final xs st, fmRun_append xs ys st⟩
  rw [fmRun_out xs st i hi, hmul, mul_one_div]

/-- Witness for C6: deviation 1, a one-sample block, carried into an empty
follow-up block. -/
theorem fm_demodulator_formula_witness :
    (FMDemodulator.new 1).mul = 1 / (2 * Real.pi * 1) ∧
    0 < ([((1 : ℝ), (0 : ℝ))] : List (ℝ × ℝ)).length ∧
    ((fmRun (FMDemodulator.new 1) [((1 : ℝ), (0 : ℝ))]).2.getD 0 0 =
      atan2Approx
        ((fmPrevSample (FMDemodulator.new 1) [((1 : ℝ), (0 : ℝ))] 0).1 *
            (([((1 : ℝ), (0 : ℝ))] : List (ℝ × ℝ)).getD 0 (0, 0)).2 -
          (([((1 : ℝ), (0 : ℝ))] : List (ℝ × ℝ)).getD 0 (0, 0)).1 *
            (fmPrevSample (FMDemodulator.new 1) [((1 : ℝ), (0 : ℝ))] 0).2)
        ((fmPrevSample (FMDemodulator.new 1) [((1 : ℝ), (0 : ℝ))] 0).1 *
            (([((1 : ℝ), (0 : ℝ))] : List (ℝ × ℝ)).getD 0 (0, 0)).1 +
          (fmPrevSample (FMDemodulator.new 1) [((1 : ℝ), (0 : ℝ))] 0).2 *
            (([((1 : ℝ), (0 : ℝ))] : List (ℝ × ℝ)).getD 0 (0, 0)).2) /
        (2 * Real.pi * 1) ∧
    (fmRun (FMDemodulator.new 1) [((1 : ℝ), (0 : ℝ))]).1 =
      ⟨(FMDemodulator.new 1).mul,
        (fmPrevSample (FMDemodulator.new 1) [((1 : ℝ), (0 : ℝ))]
          ([((1 : ℝ), (0 : ℝ))] : List (ℝ × ℝ)).length).1,
        (fmPrevSample (FMDemodulator.new 1) [((1 : ℝ), (0 : ℝ))]
          ([((1 : ℝ), (0 : ℝ))] : List (ℝ × ℝ)).length).2⟩ ∧
    fmRun (FMDemodulator.new 1) ([((1 : ℝ), (0 : ℝ))] ++ []) =
      ((fmRun (fmRun (FMDemodulator.new 1) [((1 : ℝ), (0 : ℝ))]).1 []).1,
        (fmRun (FMDemodulator.new 1) [((1 : ℝ), (0 : ℝ))]).2 ++
          (fmRun (fmRun (FMDemodulator.new 1) [((1 : ℝ), (0 : ℝ))]).1
            []).2)) :=
  ⟨rfl, by decide,
    fm_demodulator_formula 1 (FMDemodulator.new 1) rfl
      [((1 : ℝ), (0 : ℝ))] [] 0 (by decide)⟩

/--
Claim C7.  Every AM output sample follows the guarded formula: with the
carrier estimate updated first by the one-pole smoother whose decay is
`decay(sampleRate, 0.5)` — the 0.5-second time constant,
`1 - exp(-1/(R·0.5))` — the output is `r/carrier - 1` for envelope
`r = √(I²+Q²)`, and exactly 0 when the carrier estimate is 0; the carrier
estimate stays nonnegative, so the division is guarded and the output is a
well-defined (finite) real for all finite inputs.
-/
theorem am_demodulator_guarded (R : ℝ) (hR : 0 < R) (xs : List (ℝ × ℝ))
    (st : AMDemodulator) (halpha : st.alpha = decay R 0.5)
    (hc : 0 ≤ st.carrierAmplitude) (i : ℕ) (hi : i < xs.length) :
    (amRun st xs).2.getD i 0 =
      (if amCarrier st xs (i + 1) = 0 then (0 : ℝ)
        else
          Real.sqrt
              ((xs.getD i (0, 0)).1 * (xs.getD i (0, 0)).1 +
                (xs.getD i (0, 0)).2 * (xs.getD i (0, 0)).2) /
              amCarrier st xs (i + 1) -
            1) ∧
    0 ≤ amCarrier st xs (i + 1) ∧
    st.alpha = 1 - Real.exp (-1 / (R * 0.5)) ∧
    (amRun st xs).1 = ⟨st.alpha, amCarrier st xs xs.length⟩ := by
  have hd := decay_nonneg_le_one hR (show (0 : ℝ) < 0.5 by norm_num)
  have ha0 : 0 ≤ st.alpha := halpha ▸ hd.1
  have ha1 : st.alpha ≤ 1 := halpha ▸ hd.2
  exact ⟨amRun_out xs st i hi,
    amCarrier_nonneg ha0 ha1 hc xs (i + 1), halpha, amRun_final xs st⟩

/-- Witness for C7: sample rate 1, fresh demodulator, a one-sample block. -/
theorem am_demodulator_guarded_witness :
    (0 : ℝ) < 1 ∧
    (AMDemodulator.new 1).alpha = decay 1 0.5 ∧
    (0 : ℝ) ≤ (AMDemodulator.new 1).carrierAmplitude ∧
    0 < ([((3 : ℝ), (4 : ℝ))] : List (ℝ × ℝ)).length ∧
    ((amRun (AMDemodulator.new 1) [((3 : ℝ), (4 : ℝ))]).2.getD 0 0 =
      (if amCarrier (AMDemodulator.new 1) [((3 : ℝ), (4 : ℝ))] 1 = 0
        then (0 : ℝ)
        else
          Real.sqrt
              ((([((3 : ℝ), (4 : ℝ))] : List (ℝ × ℝ)).getD 0 (0, 0)).1 *
                  (([((3 : ℝ), (4 : ℝ))] : List (ℝ × ℝ)).getD 0 (0, 0)).1 +
                (([((3 : ℝ), (4 : ℝ))] : List (ℝ × ℝ)).getD 0 (0, 0)).2 *
                  (([((3 : ℝ), (4 : ℝ))] : List (ℝ × ℝ)).getD 0 (0, 0)).2) /
              amCarrier (AMDemodulator.new 1) [((3 : ℝ), (4 : ℝ))] 1 -
            1) ∧
    0 ≤ amCarrier (AMDemodulator.new 1) [((3 : ℝ), (4 : ℝ))] 1 ∧
    (AMDemodulator.new 1).alpha = 1 - Real.exp (-1 / (1 * 0.5)) ∧
    (amRun (AMDemodulator.new 1) [((3 : ℝ), (4 : ℝ))]).1 =
      ⟨(AMDemodulator.new 1).alpha,
        amCarrier (AMDemodulator.new 1) [((3 : ℝ), (4 : ℝ))]
          ([((3 : ℝ), (4 : ℝ))] : List (ℝ × ℝ)).length⟩) :=
  ⟨by norm_num, rfl, le_refl 0, by decide,
    am_demodulator_guarded 1 (by norm_num) [((3 : ℝ), (4 : ℝ))]
      (AMDemodulator.new 1) rfl (le_refl 0) 0 (by decide)⟩

/-! ### Trailing-run and PLL lock-counter lemmas -/

theorem takeWhile_append_all {p : Bool → Bool} :
    ∀ (l₁ l₂ : List Bool), l₁.all p = true →
      (l₁ ++ l₂).takeWhile p = l₁ ++ l₂.takeWhile p
  | [], l₂, _ => rfl
  | b :: l₁, l₂, h => by
      simp only [List.all_cons, Bool.and_eq_true] at h
      simp only [List.cons_append, List.takeWhile_cons, h.1, if_true]
      rw [takeWhile_append_all l₁ l₂ h.2]

theorem takeWhile_append_not_all {p : Bool → Bool} :
    ∀ (l₁ l₂ : List Bool), ¬l₁.all p = true →
      (l₁ ++ l₂).takeWhile p = l₁.takeWhile p
  | [], _, h => absurd rfl h
  | b :: l₁, l₂, h => by
      by_cases hb : p b = true
      · have h1 : ¬l₁.all p = true := by
          intro hall
          exact h (by simp [List.all_cons, hb, hall])
        simp only [List.cons_append, List.takeWhile_cons, hb, if_true]
        rw [takeWhile_append_not_all l₁ l₂ h1]
      · simp only [List.cons_append, List.takeWhile_cons]
        rw [if_neg hb, if_neg hb]

theorem takeWhile_of_all {p : Bool → Bool} :
    ∀ l : List Bool, l.all p = true → l.takeWhile p = l
  | [], _ => rfl
  | b :: l, h => by
      simp only [List.all_cons, Bool.and_eq_true] at h
      simp only [List.takeWhile_cons, h.1, if_true]
      rw [takeWhile_of_all l h.2]

theorem trailCount_all {l : List Bool} (h : l.all (fun b => b) = true) :
    trailCount l = l.length := by
  unfold trailCount
  rw [takeWhile_of_all _ (by rwa [List.all_reverse])]
  exact List.length_reverse l

theorem trailCount_cons (b : Bool) (l : List Bool) :
    trailCount (b :: l) =
      if l.all (fun x => x) = true then
        (if b then l.length + 1 else l.length)
      else trailCount l := by
  unfold trailCount
  simp only [List.reverse_cons]
  by_cases hall : l.reverse.all (fun x => x) = true
  · have hall2 : l.all (fun x => x) = true := by rwa [List.all_reverse] at hall
    rw [takeWhile_append_all _ _ hall, if_pos hall2]
    cases b
    · simp [takeWhile_of_all _ hall]
    · simp [takeWhile_of_all _ hall]
  · have hall2 : ¬l.all (fun x => x) = true := by
      rwa [List.all_reverse] at hall
    rw [takeWhile_append_not_all _ _ hall, if_neg hall2]

theorem pllAddRemaining_isFirst (st : PLL) (x : ℝ) :
    (pllAddRemaining st x).isFirst = st.isFirst := rfl

theorem pllAddRemaining_maxSpeedCorr (st : PLL) (x : ℝ) :
    (pllAddRemaining st x).maxSpeedCorr = st.maxSpeedCorr := rfl

theorem pllAddFirst_lockCounter (st : PLL) (x : ℝ) :
    (pllAddFirst st x).lockCounter = st.lockCounter := rfl

theorem pllAddRemaining_counter (st : PLL) (x : ℝ) :
    (pllAddRemaining st x).lockCounter = st.lockCounter + 1 ∨
    (pllAddRemaining st x).lockCounter = 0 := by
  unfold pllAddRemaining
  dsimp only
  split
  · exact Or.inl rfl
  · exact Or.inr rfl

theorem pllAddRemaining_locked (st : PLL) (x : ℝ) :
    (pllAddRemaining st x).locked =
      decide (20 < (pllAddRemaining st x).lockCounter) := rfl

theorem pllStep_not_first {st : PLL} (h : st.isFirst = false) (x : ℝ) :
    pllStep st x = pllAddRemaining st x := by
  simp [pllStep, h]

theorem pllStep_isFirst_false {st : PLL} (h : st.isFirst = false) (x : ℝ) :
    (pllStep st x).isFirst = false := by
  rw [pllStep_not_first h, pllAddRemaining_isFirst]
  exact h

theorem pllConds_length :
    ∀ (xs : List ℝ) (st : PLL), st.isFirst = false →
      (pllConds st xs).length = xs.length
  | [], _, _ => rfl
  | x :: xs, st, h => by
      simp only [pllConds, h, Bool.false_eq_true, if_false, List.length_cons]
      rw [pllConds_length xs _ (pllStep_isFirst_false h x)]

theorem pllProcess_counter :
    ∀ (xs : List ℝ) (st : PLL), st.isFirst = false →
      (pllProcess st xs).lockCounter =
        (if (pllConds st xs).all (fun b => b) = true then
          st.lockCounter + xs.length
        else trailCount (pllConds st xs))
  | [], st, _ => by simp [pllProcess, pllConds, trailCount]
  | x :: xs, st, h => by
      have hstep := pllStep_not_first h x
      have hfirst' : (pllAddRemaining st x).isFirst = false := by
        rw [pllAddRemaining_isFirst]
        exact h
      have ih := pllProcess_counter xs (pllAddRemaining st x) hfirst'
      have hpc : pllProcess st (x :: xs) =
          pllProcess (pllAddRemaining st x) xs := by
        show pllProcess (pllStep st x) xs = _
        rw [hstep]
      have hconds : pllConds st (x :: xs) =
          decide ((pllAddRemaining st x).lockCounter ≠ 0) ::
            pllConds (pllAddRemaining st x) xs := by
        simp only [pllConds, h, Bool.false_eq_true, if_false]
        rw [hstep]
      rw [hpc, ih, hconds]
      rcases pllAddRemaining_counter st x with hcase | hcase
      · rw [hcase]
        have hb : (decide (st.lockCounter + 1 ≠ 0)) = true := by simp
        rw [hb, List.all_cons]
        simp only [Bool.true_and]
        by_cases hall : (pllConds (pllAddRemaining st x) xs).all
            (fun b => b) = true
        · rw [if_pos hall, if_pos hall, List.length_cons]
          omega
        · rw [if_neg hall, if_neg hall, trailCount_cons, if_neg hall]
      · rw [hcase]
        have hb : (decide ((0 : ℕ) ≠ 0)) = false := by simp
        rw [hb, trailCount_cons, List.all_cons]
        simp only [Bool.false_and]
        rw [if_neg (by simp : ¬(false = true))]
        by_cases hall : (pllConds (pllAddRemaining st x) xs).all
            (fun b => b) = true
        · rw [if_pos hall, if_pos hall,
            if_neg (by simp : ¬(false = true)),
            pllConds_length xs _ hfirst']
          omega
        · rw [if_neg hall, if_neg hall]

theorem pllProcess_locked :
    ∀ (xs : List ℝ) (st : PLL), st.isFirst = false → xs ≠ [] →
      (pllProcess st xs).locked =
        decide (20 < (pllProcess st xs).lockCounter)
  | [], _, _, hne => absurd rfl hne
  | [x], st, h, _ => by
      have hstep := pllStep_not_first h x
      have hpc : pllProcess st [x] = pllStep st x := rfl
      rw [hpc, hstep]
      exact pllAddRemaining_locked st x
  | x :: y :: xs, st, h, _ => by
      have hpc : pllProcess st (x :: y :: xs) =
          pllProcess (pllStep st x) (y :: xs) := rfl
      rw [hpc]
      exact pllProcess_locked (y :: xs) (pllStep st x)
        (pllStep_isFirst_false h x) (by simp)

/-! ### A coarse bound on the approximate arctangent -/

theorem div_abs_le_one {a b : ℝ} (h : |a| ≤ |b|) : |a / b| ≤ 1 := by
  rcases eq_or_ne b 0 with hb | hb
  · simp [hb]
  · rw [abs_div]
    exact (div_le_one (abs_pos.mpr hb)).mpr h

theorem horner_bound (x B c cb b r : ℝ) (hx : |x| ≤ 1) (hc : |c| ≤ cb)
    (hB : |B| ≤ b) (hr : cb + b ≤ r) : |c + x * B| ≤ r := by
  have h1 : |c + x * B| ≤ |c| + |x * B| := abs_add _ _
  have h2 : |x * B| = |x| * |B| := abs_mul _ _
  have h3 : |x| * |B| ≤ 1 * b :=
    mul_le_mul hx hB (abs_nonneg _) zero_le_one
  linarith

theorem atan2Poly_abs_le {d : ℝ} (hd : |d| ≤ 1) : |atan2Poly d| ≤ 2 := by
  have ht : |d * d| ≤ 1 := by
    rw [abs_mul]
    nlinarith [abs_nonneg d]
  have h7 : |(0.0218612288 : ℝ) + d * d * -0.004054058| ≤ 0.026 :=
    horner_bound (d * d) (-0.004054058) 0.0218612288 0.0219 0.0041 0.026 ht
      (abs_le.mpr ⟨by norm_num, by norm_num⟩)
      (abs_le.mpr ⟨by norm_num, by norm_num⟩) (by norm_num)
  have h6 : |(-0.0559098861 : ℝ) +
      d * d * (0.0218612288 + d * d * -0.004054058)| ≤ 0.082 :=
    horner_bound (d * d) _ (-0.0559098861) 0.056 0.026 0.082 ht
      (abs_le.mpr ⟨by norm_num, by norm_num⟩) h7 (by norm_num)
  have h5 : |(0.0964200441 : ℝ) +
      d * d * (-0.0559098861 +
        d * d * (0.0218612288 + d * d * -0.004054058))| ≤ 0.179 :=
    horner_bound (d * d) _ 0.0964200441 0.0965 0.082 0.179 ht
      (abs_le.mpr ⟨by norm_num, by norm_num⟩) h6 (by norm_num)
  have h4 : |(-0.1390853351 : ℝ) +
      d * d * (0.0964200441 +
        d * d * (-0.0559098861 +
          d * d * (0.0218612288 + d * d * -0.004054058)))| ≤ 0.319 :=
    horner_bound (d * d) _ (-0.1390853351) 0.14 0.179 0.319 ht
      (abs_le.mpr ⟨by norm_num, by norm_num⟩) h5 (by norm_num)
  have h3 : |(0.1994653599 : ℝ) +
      d * d * (-0.1390853351 +
        d * d * (0.0964200441 +
          d * d * (-0.0559098861 +
            d * d * (0.0218612288 + d * d * -0.004054058))))| ≤ 0.519 :=
    horner_bound (d * d) _ 0.1994653599 0.2 0.319 0.519 ht
      (abs_le.mpr ⟨by norm_num, by norm_num⟩) h4 (by norm_num)
  have h2 : |(-0.3332985605 : ℝ) +
      d * d * (0.1994653599 +
        d * d * (-0.1390853351 +
          d * d * (0.0964200441 +
            d * d * (-0.0559098861 +
              d * d * (0.0218612288 + d * d * -0.004054058)))))| ≤ 0.853 :=
    horner_bound (d * d) _ (-0.3332985605) 0.334 0.519 0.853 ht
      (abs_le.mpr ⟨by norm_num, by norm_num⟩) h3 (by norm_num)
  have h1 : |(0.9999993329 : ℝ) +
      d * d * (-0.3332985605 +
        d * d * (0.1994653599 +
          d * d * (-0.1390853351 +
            d * d * (0.0964200441 +
              d * d * (-0.0559098861 +
                d * d * (0.0218612288 + d * d * -0.004054058))))))| ≤ 1.853 :=
    horner_bound (d * d) _ 0.9999993329 1 0.853 1.853 ht
      (abs_le.mpr ⟨by norm_num, by norm_num⟩) h2 (by norm_num)
  unfold atan2Poly
  rw [abs_mul]
  calc |d| * |0.9999993329 +
      d * d * (-0.3332985605 +
        d * d * (0.1994653599 +
          d * d * (-0.1390853351 +
            d * d * (0.0964200441 +
              d * d * (-0.0559098861 +
                d * d * (0.0218612288 + d * d * -0.004054058))))))|
      ≤ 1 * 1.853 := mul_le_mul hd h1 (abs_nonneg _) zero_le_one
    _ ≤ 2 := by norm_num

theorem atan2Quadrant_abs_le (y x res r : ℝ) (h : |res| ≤ r) :
    |atan2Quadrant y x res| ≤ r + Real.pi := by
  have hpi := Real.pi_pos
  unfold atan2Quadrant
  split_ifs
  · linarith
  · calc |res + Real.pi| ≤ |res| + |Real.pi| := abs_add _ _
      _ ≤ r + Real.pi := by rw [abs_of_pos hpi]; linarith
  · calc |res - Real.pi| ≤ |res| + |Real.pi| := abs_sub _ _
      _ ≤ r + Real.pi := by rw [abs_of_pos hpi]; linarith

theorem atan2Approx_abs_le (y x : ℝ) : |atan2Approx y x| ≤ 7 := by
  have hpi_lt : Real.pi < 3.15 := by
    have h := Real.pi_lt_d6
    linarith
  have hpi := Real.pi_pos
  unfold atan2Approx
  by_cases hswap : |x| < |y|
  · rw [if_pos hswap]
    have hdiv : |x / y| ≤ 1 := div_abs_le_one (le_of_lt hswap)
    have hpoly := atan2Poly_abs_le hdiv
    have hres : |if 0 ≤ x / y then Real.pi / 2 - atan2Poly (x / y)
        else -(Real.pi / 2) - atan2Poly (x / y)| ≤ Real.pi / 2 + 2 := by
      split_ifs
      · refine le_trans (abs_sub _ _) ?_
        rw [abs_of_pos (by linarith : (0 : ℝ) < Real.pi / 2)]
        linarith
      · refine le_trans (abs_sub _ _) ?_
        rw [abs_neg, abs_of_pos (by linarith : (0 : ℝ) < Real.pi / 2)]
        linarith
    refine le_trans (atan2Quadrant_abs_le _ _ _ _ hres) ?_
    linarith
  · rw [if_neg hswap]
    have hdiv : |y / x| ≤ 1 := div_abs_le_one (not_lt.mp hswap)
    have hpoly := atan2Poly_abs_le hdiv
    refine le_trans (atan2Quadrant_abs_le _ _ _ _ hpoly) ?_
    linarith

/-! ### Claim theorems: pilot-detector PLL lock flag -/

/--
Claim C8 counterexample.  The claim states that after each processed sample
the reported `locked` flag equals `|speed_estimate| ≤ tolerance·2π/R`.  For
the PLL with sample rate 1, target frequency 0 and tolerance 2, after the
two samples `[1, 1]` the speed-estimate condition holds — the estimate is an
`atan2` value of magnitude at most 7, below the threshold
`maxSpeedCorr = 2π·2/1` — yet `locked` is false, because `locked` is
actually `lockCounter > 20` and the counter is at most 1 after one
`addRemaining` step.
-/
theorem pll_locked_vs_speed_counterexample :
    (pllProcess (pllInit 1 0 2) [1, 1]).locked = false ∧
    (pllProcess (pllInit 1 0 2) [1, 1]).maxSpeedCorr =
      2 * Real.pi * 2 / 1 ∧
    |pllSpeedEstimate (pllProcess (pllInit 1 0 2) [1, 1])| ≤
      (pllProcess (pllInit 1 0 2) [1, 1]).maxSpeedCorr := by
  have hstep1 : pllStep (pllInit 1 0 2) 1 = pllAddFirst (pllInit 1 0 2) 1 := by
    simp [pllStep, pllInit]
  have hst1 : (pllAddFirst (pllInit 1 0 2) 1).isFirst = false := rfl
  have hproc : pllProcess (pllInit 1 0 2) [1, 1] =
      pllAddRemaining (pllAddFirst (pllInit 1 0 2) 1) 1 := by
    show pllStep (pllStep (pllInit 1 0 2) 1) 1 = _
    rw [hstep1, pllStep_not_first hst1]
  have hc0 : (pllAddFirst (pllInit 1 0 2) 1).lockCounter = 0 := rfl
  refine ⟨?_, ?_, ?_⟩
  · rw [hproc, pllAddRemaining_locked]
    rcases pllAddRemaining_counter (pllAddFirst (pllInit 1 0 2) 1) 1 with
      hcnt | hcnt
    · rw [hcnt, hc0]
      rfl
    · rw [hcnt]
      rfl
  · rw [hproc]
    rfl
  · have hb := atan2Approx_abs_le
      (chainValue (pllProcess (pllInit 1 0 2) [1, 1]).sqFlt)
      (chainValue (pllProcess (pllInit 1 0 2) [1, 1]).siFlt)
    have hmax : (pllProcess (pllInit 1 0 2) [1, 1]).maxSpeedCorr =
        2 * Real.pi * 2 / 1 := by
      rw [hproc]
      rfl
    rw [hmax]
    refine le_trans hb ?_
    have hpi := Real.pi_gt_three
    nlinarith

/--
Claim C8 (amended).  After a PLL constructed by `pllInit` processes at least
two samples, the reported `locked` flag is true exactly when more than 20 of
the most recent consecutive `addRemaining` steps passed the phase-stability
test (smoothed |Δ phase-correction| below `15·2π/R` and smoothed signed Δ
below `(90/360)·2π/R`): `locked = (trailing run of passing steps) > 20`.
The flag is not the claimed comparison of the smoothed speed estimate with
`tolerance·2π/R`.
-/
theorem pll_locked_amended (R f tol : ℝ) (xs : List ℝ)
    (h2 : 2 ≤ xs.length) :
    (pllProcess (pllInit R f tol) xs).locked =
      decide (20 < trailCount (pllConds (pllInit R f tol) xs)) := by
  match xs, h2 with
  | x :: y :: rest, _ =>
    have hfirstInit : (pllInit R f tol).isFirst = true := rfl
    have hstep1 : pllStep (pllInit R f tol) x =
        pllAddFirst (pllInit R f tol) x := by
      simp [pllStep, hfirstInit]
    have hst1 : (pllAddFirst (pllInit R f tol) x).isFirst = false := rfl
    have hproc : pllProcess (pllInit R f tol) (x :: y :: rest) =
        pllProcess (pllAddFirst (pllInit R f tol) x) (y :: rest) := by
      show pllProcess (pllStep (pllInit R f tol) x) (y :: rest) = _
      rw [hstep1]
    have hconds : pllConds (pllInit R f tol) (x :: y :: rest) =
        pllConds (pllAddFirst (pllInit R f tol) x) (y :: rest) := by
      simp only [pllConds, hfirstInit, if_true]
      rw [hstep1]
    rw [hproc, hconds,
      pllProcess_locked (y :: rest) _ hst1 (by simp),
      pllProcess_counter (y :: rest) _ hst1]
    have hc0 : (pllAddFirst (pllInit R f tol) x).lockCounter = 0 := rfl
    by_cases hall : (pllConds (pllAddFirst (pllInit R f tol) x)
        (y :: rest)).all (fun b => b) = true
    · rw [if_pos hall, hc0, trailCount_all hall,
        pllConds_length _ _ hst1, Nat.zero_add]
    · rw [if_neg hall]

/-- Witness for the amended C8 at sample rate 1, frequency 0, tolerance 2
and the two samples `[1, 1]`. -/
theorem pll_locked_amended_witness :
    2 ≤ ([1, 1] : List ℝ).length ∧
    (pllProcess (pllInit 1 0 2) [1, 1]).locked =
      decide (20 < trailCount (pllConds (pllInit 1 0 2) [1, 1])) :=
  ⟨by decide, pll_locked_amended 1 0 2 [1, 1] (by decide)⟩

/-! ### WBFM stage-1 snr lemmas -/

theorem getPower_nonneg (I Q : ℕ → ℝ) (n : ℕ) : 0 ≤ getPower I Q n :=
  div_nonneg
    (Finset.sum_nonneg fun i _ =>
      add_nonneg (mul_self_nonneg (I i)) (mul_self_nonneg (Q i)))
    (Nat.cast_nonneg n)

theorem stage1_snr_eq (st : DemodWBFMStage1) (I Q : ℕ → ℝ) (n : ℕ)
    (freqOffset : ℝ) :
    (stage1Demodulate st I Q n freqOffset).1.snr =
      stage1InBandPower st I Q n freqOffset * st.outRate / 150000 /
        stage1TotalPower st I Q n freqOffset := rfl

theorem sincTap_off_center (i : ℕ) (hi : i ≠ 75) :
    sincTap 75000 75000 151 i = 0 := by
  unfold sincTap
  have hc : (((151 : ℕ) : ℝ) - 1) / 2 = 75 := by norm_num
  rw [hc]
  have hne : (i : ℝ) ≠ 75 := by
    intro h
    exact hi (by exact_mod_cast h)
  rw [if_neg hne]
  have harg : 2 * Real.pi * 75000 * ((i : ℝ) - 75) / 75000 =
      ((2 * ((i : ℤ) - 75) : ℤ) : ℝ) * Real.pi := by
    push_cast
    field_simp
    ring
  rw [harg, Real.sin_int_mul_pi, zero_div]

theorem sincTap_center : sincTap 75000 75000 151 75 = 2 := by
  unfold sincTap
  rw [if_pos (by norm_num : ((75 : ℕ) : ℝ) = (((151 : ℕ) : ℝ) - 1) / 2)]
  norm_num

theorem hammingWindow_center : hammingWindow 151 75 = 1 := by
  unfold hammingWindow
  have h : 2 * Real.pi * ((75 : ℕ) : ℝ) / (((151 : ℕ) : ℝ) - 1) = Real.pi := by
    push_cast
    field_simp
    ring
  rw [h, Real.cos_pi]
  norm_num

theorem kernel_sum_75000 :
    ∑ j ∈ Finset.range 151,
      hammingWindow 151 j * sincTap 75000 75000 151 j = 2 := by
  rw [Finset.sum_eq_single_of_mem 75 (Finset.mem_range.mpr (by norm_num))
    (fun j _ hj => by rw [sincTap_off_center j hj, mul_zero])]
  rw [hammingWindow_center, sincTap_center]
  norm_num

theorem kernel_delta_75000 (i : ℕ) :
    makeLowPassKernel 75000 75000 151 1 i = if i = 75 then 1 else 0 := by
  unfold makeLowPassKernel
  by_cases hlt : i < 151
  · rw [if_pos hlt, kernel_sum_75000]
    by_cases h75 : i = 75
    · subst h75
      rw [hammingWindow_center, sincTap_center, if_pos rfl]
      norm_num
    · rw [sincTap_off_center i h75, mul_zero, mul_zero, zero_div,
        if_neg h75]
  · rw [if_neg hlt, if_neg (by omega : ¬i = 75)]

theorem fir_get_delta (block : ℕ → ℝ) (n i : ℕ) :
    ((FIRFilter.new (makeLowPassKernel 75000 75000 151 1) 151).loadSamples
        block n).get i =
      if i + 75 < 150 then 0 else block (i + 75 - 150) := by
  unfold FIRFilter.get FIRFilter.loadSamples FIRFilter.new
  dsimp only
  rw [Finset.sum_eq_single_of_mem 75 (Finset.mem_range.mpr (by norm_num))
    (fun j _ hj => by rw [kernel_delta_75000, if_neg hj, zero_mul])]
  rw [kernel_delta_75000, if_pos rfl, one_mul]

theorem shifterPhasor_zero (R : ℝ) :
    ∀ i, shifterPhasor (FrequencyShifter.new R) 0 i = (1, 0)
  | 0 => rfl
  | i + 1 => by
      simp [shifterPhasor, shifterPhasor_zero R i]

theorem stage1Down_75000 (I Q : ℕ → ℝ) (n : ℕ) :
    stage1Down (DemodWBFMStage1.new 75000 75000) I Q n 0 = (I, Q, n) := by
  have hdown : (DemodWBFMStage1.new 75000 75000).downsampler = none := by
    simp [DemodWBFMStage1.new]
  unfold stage1Down
  rw [hdown]
  have hsh : (DemodWBFMStage1.new 75000 75000).shifter =
      FrequencyShifter.new 75000 := rfl
  rw [hsh]
  refine congrArg₂ Prod.mk ?_ (congrArg₂ Prod.mk ?_ rfl)
  · funext i
    simp [shifterOutI, neg_zero, shifterPhasor_zero]
  · funext i
    simp [shifterOutQ, neg_zero, shifterPhasor_zero]

/-! ### Claim theorems: WBFM stage-1 snr -/

/--
Claim C9 counterexample.  The claim states that the reported `snr` equals
`in_band_power / total_power` (post-filter over pre-filter power on the same
downsampled block).  At `inRate = outRate = 75000` the 151-tap low-pass at
75 kHz is the unit-impulse kernel (pure 75-sample delay), so for the
76-sample impulse block `I = e₀, Q = 0` both measured powers equal `1/76`
and the claimed ratio is 1 — yet the code reports
`snr = in_band·(outRate/150000)/total = 1/2`, exposing the extra
`outRate/150000` factor.
-/
theorem wbfm_stage1_snr_counterexample :
    (stage1Demodulate (DemodWBFMStage1.new 75000 75000)
        (fun i => if i = 0 then (1 : ℝ) else 0) (fun _ => (0 : ℝ))
        76 0).1.snr = 1 / 2 ∧
    stage1InBandPower (DemodWBFMStage1.new 75000 75000)
        (fun i => if i = 0 then (1 : ℝ) else 0) (fun _ => (0 : ℝ)) 76 0 /
      stage1TotalPower (DemodWBFMStage1.new 75000 75000)
        (fun i => if i = 0 then (1 : ℝ) else 0) (fun _ => (0 : ℝ)) 76 0 =
      1 ∧
    (1 : ℝ) / 2 ≠ 1 := by
  have hstage := stage1Down_75000
    (fun i => if i = 0 then (1 : ℝ) else 0) (fun _ => (0 : ℝ)) 76
  have htot : stage1TotalPower (DemodWBFMStage1.new 75000 75000)
      (fun i => if i = 0 then (1 : ℝ) else 0) (fun _ => (0 : ℝ)) 76 0 =
      1 / 76 := by
    unfold stage1TotalPower
    rw [hstage]
    unfold getPower
    rw [Finset.sum_eq_single_of_mem 0 (Finset.mem_range.mpr (by norm_num))
      (fun j _ hj => by simp [hj])]
    norm_num
  have hfI : (DemodWBFMStage1.new 75000 75000).filterI =
      FIRFilter.new (makeLowPassKernel 75000 75000 151 1) 151 := rfl
  have hfQ : (DemodWBFMStage1.new 75000 75000).filterQ =
      FIRFilter.new (makeLowPassKernel 75000 75000 151 1) 151 := rfl
  have hin : stage1InBandPower (DemodWBFMStage1.new 75000 75000)
      (fun i => if i = 0 then (1 : ℝ) else 0) (fun _ => (0 : ℝ)) 76 0 =
      1 / 76 := by
    unfold stage1InBandPower
    rw [hstage, hfI, hfQ]
    unfold getPower
    dsimp only
    rw [Finset.sum_eq_single_of_mem 75 (Finset.mem_range.mpr (by norm_num))
      ?_]
    · rw [fir_get_delta, fir_get_delta]
      norm_num
    · intro j hj hne
      rw [fir_get_delta, fir_get_delta]
      have hlt : j + 75 < 150 := by
        have := Finset.mem_range.mp hj
        omega
      rw [if_pos hlt, if_pos hlt]
      norm_num
  refine ⟨?_, ?_, by norm_num⟩
  · rw [stage1_snr_eq, htot, hin]
    have hout : (DemodWBFMStage1.new 75000 75000).outRate = 75000 := rfl
    rw [hout]
    norm_num
  · rw [htot, hin]
    norm_num

/--
Claim C9 (amended).  For every stage-1 state and every block, the reported
`snr` equals `in_band_power · (outRate / 150000) / total_power`, where the
powers are measured on the same downsampled block after and before the
75 kHz low-pass; no clamping is applied, but the value is nonnegative by
construction whenever `outRate ≥ 0`, because both powers are means of
squares.
-/
theorem wbfm_stage1_snr_amended (st : DemodWBFMStage1) (I Q : ℕ → ℝ)
    (n : ℕ) (freqOffset : ℝ) (hout : 0 ≤ st.outRate) :
    (stage1Demodulate st I Q n freqOffset).1.snr =
      stage1InBandPower st I Q n freqOffset * st.outRate / 150000 /
        stage1TotalPower st I Q n freqOffset ∧
    0 ≤ (stage1Demodulate st I Q n freqOffset).1.snr := by
  refine ⟨stage1_snr_eq st I Q n freqOffset, ?_⟩
  rw [stage1_snr_eq st I Q n freqOffset]
  have h1 : 0 ≤ stage1InBandPower st I Q n freqOffset :=
    getPower_nonneg _ _ _
  have h2 : 0 ≤ stage1TotalPower st I Q n freqOffset :=
    getPower_nonneg _ _ _
  have h3 : (0 : ℝ) ≤ 150000 := by norm_num
  exact div_nonneg (div_nonneg (mul_nonneg h1 hout) h3) h2

/-- Witness for the amended C9 at a concrete 75 kHz stage and impulse
block. -/
theorem wbfm_stage1_snr_amended_witness :
    (0 : ℝ) ≤ (DemodWBFMStage1.new 75000 75000).outRate ∧
    ((stage1Demodulate (DemodWBFMStage1.new 75000 75000)
        (fun i => if i = 0 then (1 : ℝ) else 0) (fun _ => (0 : ℝ))
        76 0).1.snr =
      stage1InBandPower (DemodWBFMStage1.new 75000 75000)
          (fun i => if i = 0 then (1 : ℝ) else 0) (fun _ => (0 : ℝ)) 76 0 *
          (DemodWBFMStage1.new 75000 75000).outRate / 150000 /
        stage1TotalPower (DemodWBFMStage1.new 75000 75000)
          (fun i => if i = 0 then (1 : ℝ) else 0) (fun _ => (0 : ℝ)) 76 0 ∧
    0 ≤ (stage1Demodulate (DemodWBFMStage1.new 75000 75000)
        (fun i => if i = 0 then (1 : ℝ) else 0) (fun _ => (0 : ℝ))
        76 0).1.snr) :=
  ⟨by norm_num [DemodWBFMStage1.new],
    wbfm_stage1_snr_amended (DemodWBFMStage1.new 75000 75000)
      (fun i => if i = 0 then (1 : ℝ) else 0) (fun _ => (0 : ℝ)) 76 0
      (by norm_num [DemodWBFMStage1.new])⟩

/-! ### FFT: bit-reversal and twiddle lemmas -/

theorem reverseBits_lt : ∀ (b n : ℕ), reverseBits b n < 2 ^ b
  | 0, n => by simp [reverseBits]
  | b + 1, n => by
      have h1 := reverseBits_lt b (n / 2)
      have h2 : n % 2 ≤ 1 := by omega
      have hp : 2 ^ (b + 1) = 2 * 2 ^ b := by ring
      simp only [reverseBits]
      nlinarith [pow_pos (by norm_num : (0 : ℕ) < 2) b]

theorem reverseBits_even :
    ∀ (m r : ℕ), r < 2 ^ m → reverseBits (m + 1) r = 2 * reverseBits m r
  | 0, r, hr => by
      have : r = 0 := by omega
      subst this
      rfl
  | m + 1, r, hr => by
      have hp : 2 ^ (m + 2) = 2 * 2 ^ (m + 1) := by ring
      have hp1 : 2 ^ (m + 1) = 2 * 2 ^ m := by ring
      have hr2 : r / 2 < 2 ^ m := by omega
      show r % 2 * 2 ^ (m + 1) + reverseBits (m + 1) (r / 2) = _
      rw [reverseBits_even m (r / 2) hr2]
      show _ = 2 * (r % 2 * 2 ^ m + reverseBits m (r / 2))
      ring

theorem reverseBits_odd :
    ∀ (m r : ℕ), r < 2 ^ m →
      reverseBits (m + 1) (2 ^ m + r) = 2 * reverseBits m r + 1
  | 0, r, hr => by
      have : r = 0 := by omega
      subst this
      rfl
  | m + 1, r, hr => by
      have hp : 2 ^ (m + 2) = 2 * 2 ^ (m + 1) := by ring
      have hp1 : 2 ^ (m + 1) = 2 * 2 ^ m := by ring
      have h2 : (2 ^ (m + 1) + r) % 2 = r % 2 := by omega
      have h3 : (2 ^ (m + 1) + r) / 2 = 2 ^ m + r / 2 := by omega
      have hr2 : r / 2 < 2 ^ m := by omega
      show (2 ^ (m + 1) + r) % 2 * 2 ^ (m + 1) +
          reverseBits (m + 1) ((2 ^ (m + 1) + r) / 2) = _
      rw [h2, h3, reverseBits_odd m (r / 2) hr2]
      show _ = 2 * (r % 2 * 2 ^ m + reverseBits m (r / 2)) + 1
      ring

theorem twN_add (s : ℤ) (N : ℕ) (a b : ℤ) :
    twN s N (a + b) = twN s N a * twN s N b := by
  unfold twN
  rw [← Complex.exp_add]
  congr 1
  push_cast
  ring

theorem twN_zero (s : ℤ) (N : ℕ) : twN s N 0 = 1 := by
  simp [twN]

theorem twN_int_mul (s : ℤ) (N : ℕ) (hN : N ≠ 0) (c : ℤ) :
    twN s N (N * c) =
      Complex.exp (((-s * c : ℤ) : ℂ) * (2 * Real.pi * Complex.I)) := by
  unfold twN
  congr 1
  have hcast : (N : ℂ) ≠ 0 := by exact_mod_cast hN
  push_cast
  field_simp
  ring

theorem twN_period (s : ℤ) (N : ℕ) (hN : N ≠ 0) (t c : ℤ) :
    twN s N (t + N * c) = twN s N t := by
  rw [twN_add, twN_int_mul s N hN c, Complex.exp_int_mul_two_pi_mul_I,
    mul_one]

theorem twN_double (s : ℤ) (N : ℕ) (hN : N ≠ 0) (t : ℤ) :
    twN s (2 * N) (2 * t) = twN s N t := by
  unfold twN
  congr 1
  have hcast : (N : ℂ) ≠ 0 := by exact_mod_cast hN
  push_cast
  field_simp
  ring

theorem tw_eq_twN (s : ℤ) (M : ℕ) (hM : M ≠ 0) (j : ℕ) :
    tw s M j = twN s (2 * M) j := by
  unfold tw twN
  congr 1
  have hcast : (M : ℂ) ≠ 0 := by exact_mod_cast hM
  push_cast
  field_simp
  ring

theorem tw_one_zero (s : ℤ) : tw s 1 0 = 1 := by
  unfold tw
  norm_num [Complex.exp_zero]

theorem tw_two_zero (s : ℤ) : tw s 2 0 = 1 := by
  unfold tw
  norm_num [Complex.exp_zero]

theorem tw_two_one {s : ℤ} (hs : s = 1 ∨ s = -1) :
    tw s 2 1 = -(s : ℂ) * Complex.I := by
  rcases hs with hs | hs <;> subst hs
  · unfold tw
    have harg : -((1 : ℤ) : ℂ) * Real.pi * (1 : ℕ) / (2 : ℕ) * Complex.I =
        ((-(Real.pi / 2) : ℝ) : ℂ) * Complex.I := by
      push_cast
      ring
    rw [harg, Complex.exp_mul_I, ← Complex.ofReal_cos, ← Complex.ofReal_sin,
      Real.cos_neg, Real.sin_neg, Real.cos_pi_div_two, Real.sin_pi_div_two]
    push_cast
    ring
  · unfold tw
    have harg : -((-1 : ℤ) : ℂ) * Real.pi * (1 : ℕ) / (2 : ℕ) * Complex.I =
        (((Real.pi / 2) : ℝ) : ℂ) * Complex.I := by
      push_cast
      ring
    rw [harg, Complex.exp_mul_I, ← Complex.ofReal_cos, ← Complex.ofReal_sin,
      Real.cos_pi_div_two, Real.sin_pi_div_two]
    push_cast
    ring

theorem sum_range_double (f : ℕ → ℂ) :
    ∀ n : ℕ, ∑ i ∈ Finset.range (2 * n), f i =
      ∑ i ∈ Finset.range n, f (2 * i) + ∑ i ∈ Finset.range n, f (2 * i + 1)
  | 0 => by simp
  | n + 1 => by
      rw [show 2 * (n + 1) = 2 * n + 1 + 1 by ring, Finset.sum_range_succ,
        Finset.sum_range_succ, sum_range_double f n, Finset.sum_range_succ,
        Finset.sum_range_succ]
      ring

/-! ### FFT: block structure of the butterfly stages -/

theorem fftStages_shift (s : ℤ) :
    ∀ (m c : ℕ) (A : ℕ → ℂ) (q : ℕ), q < 2 ^ m →
      fftStages s m A (c * 2 ^ m + q) =
        fftStages s m (fun r => A (c * 2 ^ m + r)) q
  | 0, c, A, q, hq => by
      have : q = 0 := by omega
      subst this
      rfl
  | m + 1, c, A, q, hq => by
      have hP : 2 ^ (m + 1) = 2 * 2 ^ m := by ring
      have hq2m : q < 2 * 2 ^ m := by rw [← hP]; exact hq
      have hi : (c * 2 ^ (m + 1) + q) % (2 * 2 ^ m) = q := by
        rw [← hP, Nat.add_comm, Nat.add_mul_mod_self_right]
        exact Nat.mod_eq_of_lt hq
      have hq2 : q % (2 * 2 ^ m) = q := Nat.mod_eq_of_lt hq2m
      show fftPass s (2 ^ m) (fftStages s m A) (c * 2 ^ (m + 1) + q) =
        fftPass s (2 ^ m)
          (fftStages s m (fun r => A (c * 2 ^ (m + 1) + r))) q
      unfold fftPass
      rw [hi, hq2]
      by_cases hqm : q < 2 ^ m
      · rw [if_pos hqm, if_pos hqm]
        have e2 : c * 2 ^ (m + 1) + q + 2 ^ m = (2 * c + 1) * 2 ^ m + q := by
          rw [hP]; ring
        have e1 : c * 2 ^ (m + 1) + q = 2 * c * 2 ^ m + q := by
          rw [hP]; ring
        have e3 : q + 2 ^ m = 1 * 2 ^ m + q := by ring
        rw [e2, fftStages_shift s m (2 * c + 1) A q hqm,
          e1, fftStages_shift s m (2 * c) A q hqm,
          e3, fftStages_shift s m 1 (fun r => A (c * 2 ^ (m + 1) + r)) q hqm]
        have f1 : (fun r => A (2 * c * 2 ^ m + r)) =
            (fun r => A (c * 2 ^ (m + 1) + r)) := by
          funext r
          congr 1
          rw [hP]; ring
        have f2 : (fun r => A ((2 * c + 1) * 2 ^ m + r)) =
            (fun r => A (c * 2 ^ (m + 1) + (1 * 2 ^ m + r))) := by
          funext r
          congr 1
          rw [hP]; ring
        rw [f1, f2]
      · rw [if_neg hqm, if_neg hqm]
        obtain ⟨q', rfl⟩ : ∃ q', q = 2 ^ m + q' :=
          ⟨q - 2 ^ m, by omega⟩
        have hq' : q' < 2 ^ m := by omega
        have es : 2 ^ m + q' - 2 ^ m = q' := by omega
        have e1 : c * 2 ^ (m + 1) + (2 ^ m + q') - 2 ^ m
            = 2 * c * 2 ^ m + q' := by
          have h0 : c * 2 ^ (m + 1) + (2 ^ m + q') - 2 ^ m
              = c * 2 ^ (m + 1) + q' := by omega
          rw [h0, hP]; ring
        have e2 : c * 2 ^ (m + 1) + (2 ^ m + q')
            = (2 * c + 1) * 2 ^ m + q' := by
          rw [hP]; ring
        rw [e1, e2, es]
        have e3 : 2 ^ m + q' = 1 * 2 ^ m + q' := by ring
        rw [e3, fftStages_shift s m (2 * c) A q' hq',
          fftStages_shift s m (2 * c + 1) A q' hq',
          fftStages_shift s m 1 (fun r => A (c * 2 ^ (m + 1) + r)) q' hq']
        have f1 : (fun r => A (2 * c * 2 ^ m + r)) =
            (fun r => A (c * 2 ^ (m + 1) + r)) := by
          funext r
          congr 1
          rw [hP]; ring
        have f2 : (fun r => A ((2 * c + 1) * 2 ^ m + r)) =
            (fun r => A (c * 2 ^ (m + 1) + (1 * 2 ^ m + r))) := by
          funext r
          congr 1
          rw [hP]; ring
        rw [f1, f2]

theorem fftStages_congr (s : ℤ) :
    ∀ (m : ℕ) (A B : ℕ → ℂ), (∀ r, r < 2 ^ m → A r = B r) →
      ∀ k, k < 2 ^ m → fftStages s m A k = fftStages s m B k
  | 0, A, B, h, k, hk => h k hk
  | m + 1, A, B, h, k, hk => by
      have hP : 2 ^ (m + 1) = 2 * 2 ^ m := by ring
      have hk2m : k < 2 * 2 ^ m := by rw [← hP]; exact hk
      have hk2 : k % (2 * 2 ^ m) = k := Nat.mod_eq_of_lt hk2m
      have hsub : ∀ r, r < 2 ^ m → A r = B r := fun r hr =>
        h r (by omega)
      have hsub2 : ∀ r, r < 2 ^ m →
          A (1 * 2 ^ m + r) = B (1 * 2 ^ m + r) := fun r hr =>
        h (1 * 2 ^ m + r) (by omega)
      show fftPass s (2 ^ m) (fftStages s m A) k =
        fftPass s (2 ^ m) (fftStages s m B) k
      unfold fftPass
      rw [hk2]
      by_cases hkm : k < 2 ^ m
      · rw [if_pos hkm, if_pos hkm,
          fftStages_congr s m A B hsub k hkm]
        have e3 : k + 2 ^ m = 1 * 2 ^ m + k := by ring
        rw [e3, fftStages_shift s m 1 A k hkm,
          fftStages_shift s m 1 B k hkm,
          fftStages_congr s m (fun r => A (1 * 2 ^ m + r))
            (fun r => B (1 * 2 ^ m + r)) hsub2 k hkm]
      · rw [if_neg hkm, if_neg hkm]
        obtain ⟨k', rfl⟩ : ∃ k', k = 2 ^ m + k' :=
          ⟨k - 2 ^ m, by omega⟩
        have hk' : k' < 2 ^ m := by omega
        have es : 2 ^ m + k' - 2 ^ m = k' := by omega
        rw [es, fftStages_congr s m A B hsub k' hk']
        have e3 : 2 ^ m + k' = 1 * 2 ^ m + k' := by ring
        rw [e3, fftStages_shift s m 1 A k' hk',
          fftStages_shift s m 1 B k' hk',
          fftStages_congr s m (fun r => A (1 * 2 ^ m + r))
            (fun r => B (1 * 2 ^ m + r)) hsub2 k' hk']

/-! ### FFT: the stages compute the DFT of the bit-reversed load -/

theorem twN_half {s : ℤ} (hs : s = 1 ∨ s = -1) (N : ℕ) (hN : N ≠ 0) :
    twN s (2 * N) (N : ℤ) = -1 := by
  have hcast : (N : ℂ) ≠ 0 := by exact_mod_cast hN
  have harg : twN s (2 * N) (N : ℤ) =
      Complex.exp (-(s : ℂ) * Real.pi * Complex.I) := by
    unfold twN
    congr 1
    push_cast
    field_simp
    ring
  rw [harg]
  rcases hs with hs | hs <;> subst hs
  · rw [show -((1 : ℤ) : ℂ) * Real.pi * Complex.I =
        -((Real.pi : ℂ) * Complex.I) by push_cast; ring,
      Complex.exp_neg, Complex.exp_pi_mul_I]
    norm_num
  · rw [show -((-1 : ℤ) : ℂ) * Real.pi * Complex.I =
        (Real.pi : ℂ) * Complex.I by push_cast; ring,
      Complex.exp_pi_mul_I]

theorem fftStages_dft {s : ℤ} (hs : s = 1 ∨ s = -1) :
    ∀ (m : ℕ) (x : ℕ → ℂ) (k : ℕ), k < 2 ^ m →
      fftStages s m (fun p => x (reverseBits m p)) k =
        ∑ l ∈ Finset.range (2 ^ m), x l * twN s (2 ^ m) ((k * l : ℕ) : ℤ)
  | 0, x, k, hk => by
      have hk0 : k = 0 := by omega
      subst hk0
      simp [fftStages, reverseBits, twN_zero]
  | m + 1, x, k, hk => by
      have hP : 2 ^ (m + 1) = 2 * 2 ^ m := by ring
      have hpos : (0 : ℕ) < 2 ^ m := pow_pos (by norm_num) m
      have hNne : (2 : ℕ) ^ m ≠ 0 := Nat.pos_iff_ne_zero.mp hpos
      have hk2m : k < 2 * 2 ^ m := by rw [← hP]; exact hk
      have hk2 : k % (2 * 2 ^ m) = k := Nat.mod_eq_of_lt hk2m
      have hE : ∀ q, q < 2 ^ m →
          fftStages s m (fun p => x (reverseBits (m + 1) p)) q =
            ∑ l ∈ Finset.range (2 ^ m),
              x (2 * l) * twN s (2 ^ m) ((q * l : ℕ) : ℤ) := by
        intro q hq
        rw [fftStages_congr s m (fun p => x (reverseBits (m + 1) p))
          (fun p => x (2 * reverseBits m p))
          (fun r hr => by
            show x (reverseBits (m + 1) r) = x (2 * reverseBits m r)
            rw [reverseBits_even m r hr]) q hq]
        exact fftStages_dft hs m (fun l => x (2 * l)) q hq
      have hO : ∀ q, q < 2 ^ m →
          fftStages s m
              (fun r => x (reverseBits (m + 1) (1 * 2 ^ m + r))) q =
            ∑ l ∈ Finset.range (2 ^ m),
              x (2 * l + 1) * twN s (2 ^ m) ((q * l : ℕ) : ℤ) := by
        intro q hq
        rw [fftStages_congr s m
          (fun r => x (reverseBits (m + 1) (1 * 2 ^ m + r)))
          (fun p => x (2 * reverseBits m p + 1))
          (fun r hr => by
            show x (reverseBits (m + 1) (1 * 2 ^ m + r)) =
              x (2 * reverseBits m r + 1)
            rw [one_mul, reverseBits_odd m r hr]) q hq]
        exact fftStages_dft hs m (fun l => x (2 * l + 1)) q hq
      show fftPass s (2 ^ m)
          (fftStages s m (fun p => x (reverseBits (m + 1) p))) k =
        ∑ l ∈ Finset.range (2 ^ (m + 1)),
          x l * twN s (2 ^ (m + 1)) ((k * l : ℕ) : ℤ)
      unfold fftPass
      rw [hk2]
      by_cases hkm : k < 2 ^ m
      · rw [if_pos hkm, hE k hkm,
          show k + 2 ^ m = 1 * 2 ^ m + k from by ring,
          fftStages_shift s m 1 (fun p => x (reverseBits (m + 1) p)) k hkm,
          hO k hkm, tw_eq_twN s (2 ^ m) hNne k, hP,
          sum_range_double
            (fun l => x l * twN s (2 * 2 ^ m) ((k * l : ℕ) : ℤ)) (2 ^ m)]
        have hsum1 : ∀ l ∈ Finset.range (2 ^ m),
            x (2 * l) * twN s (2 * 2 ^ m) ((k * (2 * l) : ℕ) : ℤ) =
              x (2 * l) * twN s (2 ^ m) ((k * l : ℕ) : ℤ) := by
          intro l _
          congr 1
          rw [show ((k * (2 * l) : ℕ) : ℤ) = 2 * ((k * l : ℕ) : ℤ) from by
            push_cast; ring]
          rw [twN_double s (2 ^ m) hNne]
        have hsum2 : ∀ l ∈ Finset.range (2 ^ m),
            x (2 * l + 1) * twN s (2 * 2 ^ m) ((k * (2 * l + 1) : ℕ) : ℤ) =
              x (2 * l + 1) *
                (twN s (2 * 2 ^ m) (k : ℤ) *
                  twN s (2 ^ m) ((k * l : ℕ) : ℤ)) := by
          intro l _
          congr 1
          rw [show ((k * (2 * l + 1) : ℕ) : ℤ) =
              (k : ℤ) + 2 * ((k * l : ℕ) : ℤ) from by push_cast; ring]
          rw [twN_add, twN_double s (2 ^ m) hNne]
        rw [Finset.sum_congr rfl hsum1, Finset.sum_congr rfl hsum2,
          Finset.mul_sum]
        have hfin : ∑ l ∈ Finset.range (2 ^ m),
            twN s (2 * 2 ^ m) (k : ℤ) *
              (x (2 * l + 1) * twN s (2 ^ m) ((k * l : ℕ) : ℤ)) =
            ∑ l ∈ Finset.range (2 ^ m),
              x (2 * l + 1) *
                (twN s (2 * 2 ^ m) (k : ℤ) *
                  twN s (2 ^ m) ((k * l : ℕ) : ℤ)) :=
          Finset.sum_congr rfl fun l _ => by ring
        rw [hfin]
      · rw [if_neg hkm]
        obtain ⟨k', rfl⟩ : ∃ k', k = 2 ^ m + k' :=
          ⟨k - 2 ^ m, by omega⟩
        have hk' : k' < 2 ^ m := by omega
        have es : 2 ^ m + k' - 2 ^ m = k' := by omega
        rw [es, hE k' hk']
        conv_lhs =>
          rw [show (2 : ℕ) ^ m + k' = 1 * 2 ^ m + k' from by ring,
            fftStages_shift s m 1
              (fun p => x (reverseBits (m + 1) p)) k' hk']
        rw [hO k' hk', tw_eq_twN s (2 ^ m) hNne k', hP,
          sum_range_double
            (fun l => x l * twN s (2 * 2 ^ m) (((2 ^ m + k') * l : ℕ) : ℤ))
            (2 ^ m)]
        have hsum1 : ∀ l ∈ Finset.range (2 ^ m),
            x (2 * l) * twN s (2 * 2 ^ m) (((2 ^ m + k') * (2 * l) : ℕ) : ℤ) =
              x (2 * l) * twN s (2 ^ m) ((k' * l : ℕ) : ℤ) := by
          intro l _
          congr 1
          rw [show (((2 ^ m + k') * (2 * l) : ℕ) : ℤ) =
              2 * (((k' * l : ℕ) : ℤ) + ((2 ^ m : ℕ) : ℤ) * (l : ℕ)) from by
            push_cast; ring]
          rw [twN_double s (2 ^ m) hNne, twN_period s (2 ^ m) hNne]
        have hsum2 : ∀ l ∈ Finset.range (2 ^ m),
            x (2 * l + 1) *
                twN s (2 * 2 ^ m) (((2 ^ m + k') * (2 * l + 1) : ℕ) : ℤ) =
              x (2 * l + 1) *
                (-(twN s (2 * 2 ^ m) (k' : ℤ)) *
                  twN s (2 ^ m) ((k' * l : ℕ) : ℤ)) := by
          intro l _
          congr 1
          rw [show (((2 ^ m + k') * (2 * l + 1) : ℕ) : ℤ) =
              ((2 ^ m : ℕ) : ℤ) + ((k' : ℤ) +
                2 * (((k' * l : ℕ) : ℤ) + ((2 ^ m : ℕ) : ℤ) * (l : ℕ))) from by
            push_cast; ring]
          rw [twN_add, twN_add, twN_double s (2 ^ m) hNne,
            twN_period s (2 ^ m) hNne, twN_half hs (2 ^ m) hNne]
          ring
        rw [Finset.sum_congr rfl hsum1, Finset.sum_congr rfl hsum2]
        have hfin : ∑ l ∈ Finset.range (2 ^ m),
            x (2 * l + 1) *
              (-(twN s (2 * 2 ^ m) (k' : ℤ)) *
                twN s (2 ^ m) ((k' * l : ℕ) : ℤ)) =
            -(twN s (2 * 2 ^ m) (k' : ℤ) *
              ∑ l ∈ Finset.range (2 ^ m),
                x (2 * l + 1) * twN s (2 ^ m) ((k' * l : ℕ) : ℤ)) := by
          rw [Finset.mul_sum, ← Finset.sum_neg_distrib]
          exact Finset.sum_congr rfl fun l _ => by ring
        rw [hfin]
        ring

/-! ### FFT: the fused radix-4 base loop equals the first two stages -/

theorem fftBase_eq {s : ℤ} (hs : s = 1 ∨ s = -1) (A : ℕ → ℂ) (i : ℕ) :
    fftBase s A i = fftStages s 2 A i := by
  show fftBase s A i = fftPass s 2 (fftPass s 1 A) i
  rcases (by omega : i % 4 = 0 ∨ i % 4 = 1 ∨ i % 4 = 2 ∨ i % 4 = 3)
    with h | h | h | h
  · obtain ⟨q, rfl⟩ : ∃ q, i = 4 * q := ⟨i / 4, by omega⟩
    unfold fftBase fftPass
    rw [if_pos (by omega : (4 * q) % 4 = 0),
      if_pos (by omega : (4 * q) % (2 * 2) < 2),
      if_pos (by omega : (4 * q) % (2 * 1) < 1),
      if_pos (by omega : (4 * q + 2) % (2 * 1) < 1),
      (by omega : (4 * q) / 4 = q),
      (by omega : (4 * q) % (2 * 1) = 0),
      (by omega : (4 * q + 2) % (2 * 1) = 0),
      (by omega : (4 * q) % (2 * 2) = 0),
      (by omega : 4 * q + 2 + 1 = 4 * q + 3),
      tw_one_zero, tw_two_zero]
    ring
  · obtain ⟨q, rfl⟩ : ∃ q, i = 4 * q + 1 := ⟨i / 4, by omega⟩
    unfold fftBase fftPass
    rw [if_neg (by omega : ¬ (4 * q + 1) % 4 = 0),
      if_pos (by omega : (4 * q + 1) % 4 = 1),
      if_pos (by omega : (4 * q + 1) % (2 * 2) < 2),
      if_neg (by omega : ¬ (4 * q + 1) % (2 * 1) < 1),
      if_neg (by omega : ¬ (4 * q + 1 + 2) % (2 * 1) < 1),
      (by omega : (4 * q + 1) / 4 = q),
      (by omega : (4 * q + 1) % (2 * 1) - 1 = 0),
      (by omega : (4 * q + 1 + 2) % (2 * 1) - 1 = 0),
      (by omega : (4 * q + 1) % (2 * 2) = 1),
      (by omega : 4 * q + 1 - 1 = 4 * q),
      (by omega : 4 * q + 1 + 2 - 1 = 4 * q + 2),
      (by omega : 4 * q + 1 + 2 = 4 * q + 3),
      tw_one_zero, tw_two_one hs]
    ring
  · obtain ⟨q, rfl⟩ : ∃ q, i = 4 * q + 2 := ⟨i / 4, by omega⟩
    unfold fftBase fftPass
    rw [if_neg (by omega : ¬ (4 * q + 2) % 4 = 0),
      if_neg (by omega : ¬ (4 * q + 2) % 4 = 1),
      if_pos (by omega : (4 * q + 2) % 4 = 2),
      if_neg (by omega : ¬ (4 * q + 2) % (2 * 2) < 2),
      if_pos (by omega : (4 * q + 2 - 2) % (2 * 1) < 1),
      if_pos (by omega : (4 * q + 2) % (2 * 1) < 1),
      (by omega : (4 * q + 2) / 4 = q),
      (by omega : (4 * q + 2 - 2) % (2 * 1) = 0),
      (by omega : (4 * q + 2) % (2 * 1) = 0),
      (by omega : (4 * q + 2) % (2 * 2) - 2 = 0),
      (by omega : 4 * q + 2 - 2 + 1 = 4 * q + 1),
      (by omega : 4 * q + 2 - 2 = 4 * q),
      (by omega : 4 * q + 2 + 1 = 4 * q + 3),
      tw_one_zero, tw_two_zero]
    ring
  · obtain ⟨q, rfl⟩ : ∃ q, i = 4 * q + 3 := ⟨i / 4, by omega⟩
    unfold fftBase fftPass
    rw [if_neg (by omega : ¬ (4 * q + 3) % 4 = 0),
      if_neg (by omega : ¬ (4 * q + 3) % 4 = 1),
      if_neg (by omega : ¬ (4 * q + 3) % 4 = 2),
      if_neg (by omega : ¬ (4 * q + 3) % (2 * 2) < 2),
      if_neg (by omega : ¬ (4 * q + 3 - 2) % (2 * 1) < 1),
      if_neg (by omega : ¬ (4 * q + 3) % (2 * 1) < 1),
      (by omega : (4 * q + 3) / 4 = q),
      (by omega : (4 * q + 3 - 2) % (2 * 1) - 1 = 0),
      (by omega : (4 * q + 3) % (2 * 1) - 1 = 0),
      (by omega : (4 * q + 3) % (2 * 2) - 2 = 1),
      (by omega : 4 * q + 3 - 2 - 1 = 4 * q),
      (by omega : 4 * q + 3 - 2 = 4 * q + 1),
      (by omega : 4 * q + 3 - 1 = 4 * q + 2),
      tw_one_zero, tw_two_one hs]
    ring

theorem doFastTransform_eq {s : ℤ} (hs : s = 1 ∨ s = -1) :
    ∀ (m : ℕ) (A : ℕ → ℂ) (i : ℕ), 2 ≤ m →
      doFastTransform s m A i = fftStages s m A i
  | 0, _, _, h => absurd h (by omega)
  | 1, _, _, h => absurd h (by omega)
  | 2, A, i, _ => fftBase_eq hs A i
  | m + 3, A, i, _ => by
      show fftPass s (2 ^ (m + 2)) (doFastTransform s (m + 2) A) i =
        fftPass s (2 ^ (m + 2)) (fftStages s (m + 2) A) i
      unfold fftPass
      by_cases hc : i % (2 * 2 ^ (m + 2)) < 2 ^ (m + 2)
      · rw [if_pos hc, if_pos hc,
          doFastTransform_eq hs (m + 2) A i (by omega),
          doFastTransform_eq hs (m + 2) A (i + 2 ^ (m + 2)) (by omega)]
      · rw [if_neg hc, if_neg hc,
          doFastTransform_eq hs (m + 2) A (i - 2 ^ (m + 2)) (by omega),
          doFastTransform_eq hs (m + 2) A i (by omega)]

/-! ### FFT: orthogonality of the discrete exponentials -/

theorem twN_orthogonal (m : ℕ) (k l : ℕ) (hk : k < 2 ^ m) (hl : l < 2 ^ m) :
    ∑ j ∈ Finset.range (2 ^ m),
        twN 1 (2 ^ m) ((j * l : ℕ) : ℤ) * twN (-1) (2 ^ m) ((k * j : ℕ) : ℤ) =
      if l = k then ((2 : ℂ) ^ m) else 0 := by
  have hN' : ((2 : ℂ) ^ m) ≠ 0 := pow_ne_zero m two_ne_zero
  have hterm : ∀ j : ℕ,
      twN 1 (2 ^ m) ((j * l : ℕ) : ℤ) * twN (-1) (2 ^ m) ((k * j : ℕ) : ℤ) =
        Complex.exp (((k : ℂ) - (l : ℂ)) * (2 * (Real.pi : ℂ) * Complex.I) /
          ((2 : ℂ) ^ m)) ^ j := by
    intro j
    rw [← Complex.exp_nat_mul]
    unfold twN
    rw [← Complex.exp_add]
    congr 1
    have hcast : ((2 : ℕ) ^ m : ℂ) ≠ 0 := by
      push_cast
      exact hN'
    push_cast
    field_simp
    ring
  rw [Finset.sum_congr rfl (fun j _ => hterm j)]
  by_cases hlk : l = k
  · subst hlk
    rw [if_pos rfl]
    have hone : Complex.exp (((l : ℂ) - (l : ℂ)) *
        (2 * (Real.pi : ℂ) * Complex.I) / ((2 : ℂ) ^ m)) = 1 := by
      rw [sub_self, zero_mul, zero_div, Complex.exp_zero]
    rw [hone]
    simp
  · rw [if_neg hlk]
    have hω1 : Complex.exp (((k : ℂ) - (l : ℂ)) *
        (2 * (Real.pi : ℂ) * Complex.I) / ((2 : ℂ) ^ m)) ≠ 1 := by
      intro hone
      rw [Complex.exp_eq_one_iff] at hone
      obtain ⟨n, hn⟩ := hone
      rw [div_eq_iff hN'] at hn
      have hpi : (2 * (Real.pi : ℂ) * Complex.I) ≠ 0 := by
        apply mul_ne_zero (mul_ne_zero two_ne_zero _) Complex.I_ne_zero
        exact Complex.ofReal_ne_zero.mpr Real.pi_ne_zero
      have h4 : ((k : ℂ) - (l : ℂ)) * (2 * (Real.pi : ℂ) * Complex.I) =
          ((n : ℂ) * (2 : ℂ) ^ m) * (2 * (Real.pi : ℂ) * Complex.I) :=
        hn.trans (by ring)
      have h5 : (k : ℂ) - (l : ℂ) = (n : ℂ) * (2 : ℂ) ^ m :=
        mul_right_cancel₀ hpi h4
      have h6 : (k : ℤ) - (l : ℤ) = n * ((2 ^ m : ℕ) : ℤ) := by
        exact_mod_cast h5
      have hNZ : (0 : ℤ) < ((2 ^ m : ℕ) : ℤ) := by
        exact_mod_cast pow_pos (by norm_num : (0:ℕ) < 2) m
      have hkZ : (k : ℤ) < ((2 ^ m : ℕ) : ℤ) := by exact_mod_cast hk
      have hlZ : (l : ℤ) < ((2 ^ m : ℕ) : ℤ) := by exact_mod_cast hl
      have hne : (k : ℤ) - (l : ℤ) ≠ 0 := by
        intro h0
        exact hlk (by omega)
      have h9 : n = 0 := by
        by_contra hn0
        rcases (by omega : 1 ≤ n ∨ n ≤ -1) with hge | hle
        · have h10 : ((2 ^ m : ℕ) : ℤ) ≤ n * ((2 ^ m : ℕ) : ℤ) :=
            le_mul_of_one_le_left (le_of_lt hNZ) hge
          omega
        · have h10 : n * ((2 ^ m : ℕ) : ℤ) ≤ (-1) * ((2 ^ m : ℕ) : ℤ) :=
            mul_le_mul_of_nonneg_right hle (le_of_lt hNZ)
          omega
      rw [h9, zero_mul] at h6
      exact hne h6
    rw [geom_sum_eq hω1]
    have hωN : Complex.exp (((k : ℂ) - (l : ℂ)) *
        (2 * (Real.pi : ℂ) * Complex.I) / ((2 : ℂ) ^ m)) ^ (2 ^ m) = 1 := by
      rw [← Complex.exp_nat_mul]
      rw [show ((2 ^ m : ℕ) : ℂ) * (((k : ℂ) - (l : ℂ)) *
          (2 * (Real.pi : ℂ) * Complex.I) / ((2 : ℂ) ^ m)) =
          (((k : ℤ) - (l : ℤ) : ℤ) : ℂ) * (2 * (Real.pi : ℂ) * Complex.I)
        from by push_cast; field_simp]
      exact Complex.exp_int_mul_two_pi_mul_I _
    rw [hωN, sub_self, zero_div]

/-! ### Claim theorems: FFT round-trip -/

/-- C1: for an FFT of length `2^m` with `m ≥ 2` (the radix-4 base loop
needs length at least 4) and the default all-ones window, running the
forward transform (which loads every sample divided by the length at the
bit-reversed positions) and then the unscaled reverse transform returns
the input exactly in the real-arithmetic semantics: the composition is
the identity. -/
theorem fft_roundtrip (m : ℕ) (hm : 2 ≤ m) (x : ℕ → ℂ) (k : ℕ)
    (hk : k < 2 ^ m) :
    fftReverse m (fftTransform m (fun _ => 1) x) k = x k := by
  have hs1 : (1 : ℤ) = 1 ∨ (1 : ℤ) = -1 := Or.inl rfl
  have hsm : (-1 : ℤ) = 1 ∨ (-1 : ℤ) = -1 := Or.inr rfl
  have hNpos : (0 : ℕ) < 2 ^ m := pow_pos (by norm_num) m
  have hNne : (2 : ℕ) ^ m ≠ 0 := Nat.pos_iff_ne_zero.mp hNpos
  have hN' : ((2 : ℂ) ^ m) ≠ 0 := pow_ne_zero m two_ne_zero
  have hX : ∀ j, j < 2 ^ m → fftTransform m (fun _ => (1 : ℂ)) x j =
      ∑ l ∈ Finset.range (2 ^ m),
        x l / ((2 : ℂ) ^ m) * twN 1 (2 ^ m) ((j * l : ℕ) : ℤ) := by
    intro j hj
    have h1 : fftTransform m (fun _ => (1 : ℂ)) x j =
        doFastTransform 1 m
          (fun p => (1 : ℂ) * x (reverseBits m p) / ((2 : ℂ) ^ m)) j := rfl
    rw [h1, doFastTransform_eq hs1 m _ j hm,
      fftStages_dft hs1 m (fun l => (1 : ℂ) * x l / ((2 : ℂ) ^ m)) j hj]
    exact Finset.sum_congr rfl (fun l _ => by rw [one_mul])
  have h2 : fftReverse m (fftTransform m (fun _ => (1 : ℂ)) x) k =
      fftStages (-1) m
        (fun p => fftTransform m (fun _ => (1 : ℂ)) x (reverseBits m p))
        k := by
    rw [show fftReverse m (fftTransform m (fun _ => (1 : ℂ)) x) k =
        doFastTransform (-1) m
          (fun p => fftTransform m (fun _ => (1 : ℂ)) x (reverseBits m p)) k
      from rfl, doFastTransform_eq hsm m _ k hm]
  rw [h2,
    fftStages_dft hsm m (fftTransform m (fun _ => (1 : ℂ)) x) k hk,
    Finset.sum_congr rfl
      (fun j hj => by rw [hX j (Finset.mem_range.mp hj)]),
    Finset.sum_congr rfl (fun j _ =>
      Finset.sum_mul _ _ (twN (-1) (2 ^ m) ((k * j : ℕ) : ℤ))),
    Finset.sum_comm]
  have hfact : ∀ l ∈ Finset.range (2 ^ m),
      ∑ j ∈ Finset.range (2 ^ m),
          x l / ((2 : ℂ) ^ m) * twN 1 (2 ^ m) ((j * l : ℕ) : ℤ) *
            twN (-1) (2 ^ m) ((k * j : ℕ) : ℤ) =
        x l / ((2 : ℂ) ^ m) *
          ∑ j ∈ Finset.range (2 ^ m),
            twN 1 (2 ^ m) ((j * l : ℕ) : ℤ) *
              twN (-1) (2 ^ m) ((k * j : ℕ) : ℤ) := by
    intro l _
    rw [Finset.mul_sum]
    exact Finset.sum_congr rfl fun j _ => by ring
  rw [Finset.sum_congr rfl hfact,
    Finset.sum_congr rfl
      (fun l hl => by
        rw [twN_orthogonal m k l hk (Finset.mem_range.mp hl)]),
    Finset.sum_eq_single_of_mem k (Finset.mem_range.mpr hk)
      (fun l _ hlk => by rw [if_neg hlk, mul_zero]),
    if_pos rfl, div_mul_cancel₀ _ hN']

theorem fft_roundtrip_witness :
    2 ≤ 2 ∧ 0 < 2 ^ 2 ∧
      fftReverse 2 (fftTransform 2 (fun _ => 1) (fun _ => (1 : ℂ))) 0 = 1 :=
  ⟨by norm_num, by norm_num,
    fft_roundtrip 2 (by norm_num) (fun _ => (1 : ℂ)) 0 (by norm_num)⟩

/-! ### Claim theorems: radio command serialization -/

theorem runCmds_append (S : SignalSource) :
    ∀ (cmds₁ cmds₂ : List RadioCmd) (st : RadioState),
      runCmds S st (cmds₁ ++ cmds₂) =
        ((runCmds S (runCmds S st cmds₁).1 cmds₂).1,
          (runCmds S st cmds₁).2 ++ (runCmds S (runCmds S st cmds₁).1 cmds₂).2)
  | [], cmds₂, st => by simp [runCmds]
  | c :: cs, cmds₂, st => by
      simp only [List.cons_append, runCmds]
      rw [show cs.append cmds₂ = cs ++ cmds₂ from rfl,
        runCmds_append S cs cmds₂ (execCmd S st c).1]
      simp [List.append_assoc]

/--
Claim C2.  Commands submitted to the radio are serialized by the
`SingleThread` promise chain: executing a submitted command list is the
sequential composition of the command bodies — each command's state update
and its full trace of awaited source calls come before anything of the next
command — and in particular a `setFrequency` submitted before a
`setParameter` while PLAYING reaches the source first: the combined trace is
the frequency command's `setCenterFrequency` call (absent only when the
requested frequency already equals the tuned one) followed by the parameter
command's `setParameter` call.
-/
theorem radio_commands_in_submission_order (S : SignalSource)
    (st : RadioState) (f : ℤ) (k : String) (v : ℤ)
    (h : st.state = .playing) :
    (∀ (st' : RadioState) (cmds₁ cmds₂ : List RadioCmd),
      runCmds S st' (cmds₁ ++ cmds₂) =
        ((runCmds S (runCmds S st' cmds₁).1 cmds₂).1,
          (runCmds S st' cmds₁).2 ++
            (runCmds S (runCmds S st' cmds₁).1 cmds₂).2)) ∧
    (runCmds S st [.setFrequency f, .setParameter k v]).2 =
      (if st.frequency = f then [] else [.src (.setCenterFrequency f)]) ++
        [.src (.setParameter k (some v))] := by
  refine ⟨fun st' cmds₁ cmds₂ => runCmds_append S cmds₁ cmds₂ st', ?_⟩
  by_cases hf : st.frequency = f
  · simp [runCmds, execCmd, h, hf]
  · simp [runCmds, execCmd, h, hf]

/-- Witness for C2 at a concrete playing radio, echo source, fresh frequency
and one parameter. -/
theorem radio_commands_in_submission_order_witness :
    (RadioState.mk .playing 1024000 100 []).state = .playing ∧
    ((∀ (st' : RadioState) (cmds₁ cmds₂ : List RadioCmd),
      runCmds ⟨fun r => r, fun g => g, fun _ w => w⟩ st' (cmds₁ ++ cmds₂) =
        ((runCmds ⟨fun r => r, fun g => g, fun _ w => w⟩
            (runCmds ⟨fun r => r, fun g => g, fun _ w => w⟩ st' cmds₁).1
            cmds₂).1,
          (runCmds ⟨fun r => r, fun g => g, fun _ w => w⟩ st' cmds₁).2 ++
            (runCmds ⟨fun r => r, fun g => g, fun _ w => w⟩
              (runCmds ⟨fun r => r, fun g => g, fun _ w => w⟩ st' cmds₁).1
              cmds₂).2)) ∧
    (runCmds ⟨fun r => r, fun g => g, fun _ w => w⟩
        (RadioState.mk .playing 1024000 100 [])
        [.setFrequency 200, .setParameter "gain" 3]).2 =
      (if (RadioState.mk .playing 1024000 100 [] : RadioState).frequency = 200
        then []
        else [.src (.setCenterFrequency 200)]) ++
        [.src (.setParameter "gain" (some 3))]) :=
  ⟨rfl,
    radio_commands_in_submission_order ⟨fun r => r, fun g => g, fun _ w => w⟩
      (RadioState.mk .playing 1024000 100 []) 200 "gain" 3 rfl⟩

/--
Claim C10.  While PLAYING, `setFrequency` with the currently tuned frequency
is a complete no-op: the command body makes no call into the signal source,
dispatches no event, and leaves the radio state — in particular the value
`getFrequency()` returns — unchanged.
-/
theorem setFrequency_same_frequency_noop (S : SignalSource)
    (st : RadioState) (f : ℤ) (h1 : st.state = .playing)
    (h2 : st.frequency = f) :
    execCmd S st (.setFrequency f) = (st, []) := by
  simp [execCmd, h1, h2]

/-- Witness for C10: a concrete playing radio tuned to 100 Hz. -/
theorem setFrequency_same_frequency_noop_witness :
    (RadioState.mk .playing 1024000 100 []).state = .playing ∧
    (RadioState.mk .playing 1024000 100 [] : RadioState).frequency = 100 ∧
    execCmd ⟨fun r => r, fun g => g, fun _ w => w⟩
        (RadioState.mk .playing 1024000 100 []) (.setFrequency 100) =
      (RadioState.mk .playing 1024000 100 [], []) :=
  ⟨rfl, rfl,
    setFrequency_same_frequency_noop ⟨fun r => r, fun g => g, fun _ w => w⟩
      (RadioState.mk .playing 1024000 100 []) 100 rfl rfl⟩

/-- Witness for C3: a concrete run at capacity 2 with a failing third `add`,
a FIFO `resolve`, and a `cancel`. -/
theorem pendingReadRing_fifo_witness :
    0 < 2 ∧
    ((runReads (PendingReadRing.new 2) 0
        [.add 5, .add 7, .add 3, .resolve 4, .cancel]).2 =
      (absRunReads 2 [] 0
        [.add 5, .add 7, .add 3, .resolve 4, .cancel]).2 ∧
    queueOf (runReads (PendingReadRing.new 2) 0
        [.add 5, .add 7, .add 3, .resolve 4, .cancel]).1 =
      (absRunReads 2 [] 0
        [.add 5, .add 7, .add 3, .resolve 4, .cancel]).1 ∧
    defaultPendingReadCapacity = 8) :=
  ⟨by decide,
    pendingReadRing_fifo 2 [.add 5, .add 7, .add 3, .resolve 4, .cancel]
      (by decide)⟩

end Signals
